import Mathlib

/-
Verification of the JPX futures/options reconciliation engine.

Shallow embedding conventions:
  * calendar dates are modelled as `Nat` (only ordering and equality of
    dates matter to the reconciliation logic);
  * Python floats are modelled as `Rat`;
  * Python dicts are modelled as insertion-ordered association lists:
    `dinsert` mirrors `d[k] = v` (replace in place, append when new) and
    `dget` mirrors `d.get(k)`;
  * fetching / spreadsheet parsing is abstracted into an environment
    (`Env`) providing the parsed record lists per file key, mirroring the
    fetcher + parser collaborators that the aggregator calls.
-/

set_option autoImplicit false

namespace JPX

/-- Python-dict insert: replace the value at an existing key in place,
append a new binding at the end otherwise. -/
def dinsert {κ α : Type} [DecidableEq κ] (k : κ) (v : α) : List (κ × α) → List (κ × α)
  | [] => [(k, v)]
  | (k2, v2) :: rest => if k2 = k then (k, v) :: rest else (k2, v2) :: dinsert k v rest

/-- Python-dict lookup (first binding; bindings built by `dinsert` have
pairwise distinct keys). -/
def dget {κ α : Type} [DecidableEq κ] (k : κ) : List (κ × α) → Option α
  | [] => none
  | (k2, v) :: rest => if k2 = k then some v else dget k rest

/-- `d.setdefault(k, []).append(v)`: append `v` to the list stored at `k`,
creating the binding when absent. -/
def dappend {κ α : Type} [DecidableEq κ] : List (κ × List α) → κ → α → List (κ × List α)
  | [], k, v => [(k, [v])]
  | (k2, vs) :: rest, k, v =>
      if k2 = k then (k2, vs ++ [v]) :: rest else (k2, vs) :: dappend rest k v

/-- Stable insertion used to model Python's stable `sort`: `x` is placed
before the first element it must strictly precede. -/
def insertOrd {α : Type} (gt : α → α → Bool) (x : α) : List α → List α
  | [] => [x]
  | y :: ys => if gt x y then x :: y :: ys else y :: insertOrd gt x ys

/-- Stable sort by the strict precedence test `gt` (Python `list.sort`). -/
def sortOrd {α : Type} (gt : α → α → Bool) (l : List α) : List α :=
  l.foldr (insertOrd gt) []

/-- models.ParticipantVolume: one participant's daily volume record. -/
structure ParticipantVolume where
  trade_date : Nat
  product : String
  contract_month : String
  participant_id : String
  participant_name_en : String
  participant_name_jp : String
  rank : Int
  volume : Rat
  volume_day : Rat
  volume_night : Rat
deriving DecidableEq

/-- The dict key used by merge_volume_records. -/
def volKey (r : ParticipantVolume) : Nat × String × String × String :=
  (r.trade_date, r.product, r.contract_month, r.participant_id)

/-- The in-place update branch of merge_volume_records: volumes are summed,
display names are filled only when the stored one is empty. -/
def combineVol (e r : ParticipantVolume) : ParticipantVolume :=
  { e with
    volume := e.volume + r.volume
    volume_day := e.volume_day + r.volume_day
    volume_night := e.volume_night + r.volume_night
    participant_name_en :=
      if e.participant_name_en = "" ∧ r.participant_name_en ≠ "" then
        r.participant_name_en
      else e.participant_name_en
    participant_name_jp :=
      if e.participant_name_jp = "" ∧ r.participant_name_jp ≠ "" then
        r.participant_name_jp
      else e.participant_name_jp }

/-- Process one record of the merge loop: update the (unique) entry with the
same key, or append a fresh entry. -/
def addVolRecord : List ParticipantVolume → ParticipantVolume → List ParticipantVolume
  | [], r => [r]
  | e :: es, r =>
      if volKey e = volKey r then combineVol e r :: es
      else e :: addVolRecord es r

/-- parser_volume.merge_volume_records: fold all input lists through the
combining dict, output in insertion order. -/
def merge_volume_records (lists : List (List ParticipantVolume)) : List ParticipantVolume :=
  lists.flatten.foldl addVolRecord []

/-- Left fold of `combineVol`: the merged entry that a run of same-key
records produces. -/
def foldCombine (e : ParticipantVolume) (rs : List ParticipantVolume) : ParticipantVolume :=
  rs.foldl combineVol e

/-- Shape of the same-key records surviving in the accumulator: the head
entry absorbs the new records, later duplicates (never produced by the
merge itself) are untouched. -/
def mergeEntryG : List ParticipantVolume → List ParticipantVolume → List ParticipantVolume
  | [], [] => []
  | [], r :: rs => [foldCombine r rs]
  | e :: es, rs => foldCombine e rs :: es

theorem volKey_combineVol (e r : ParticipantVolume) : volKey (combineVol e r) = volKey e := rfl

theorem filter_addVolRecord_ne (acc : List ParticipantVolume) (r : ParticipantVolume)
    (k : Nat × String × String × String) (h : volKey r ≠ k) :
    (addVolRecord acc r).filter (fun x => volKey x = k) =
      acc.filter (fun x => volKey x = k) := by
  induction acc with
  | nil => simp [addVolRecord, List.filter, h]
  | cons e es ih =>
    by_cases he : volKey e = volKey r
    · simp only [addVolRecord, he, if_pos rfl]
      have h1 : ¬ (volKey (combineVol e r) = k) := by
        rw [volKey_combineVol, he]; exact h
      have h2 : ¬ (volKey e = k) := by rw [he]; exact h
      simp [List.filter_cons, h1, h2]
    · simp only [addVolRecord, if_neg he]
      by_cases hk : volKey e = k
      · simp [List.filter_cons, hk, ih]
      · simp [List.filter_cons, hk, ih]

theorem filter_addVolRecord_eq (acc : List ParticipantVolume) (r : ParticipantVolume)
    (k : Nat × String × String × String) (h : volKey r = k) :
    (addVolRecord acc r).filter (fun x => volKey x = k) =
      (match acc.filter (fun x => volKey x = k) with
        | [] => [r]
        | e :: es => combineVol e r :: es) := by
  induction acc with
  | nil => simp [addVolRecord, List.filter, h]
  | cons e es ih =>
    by_cases he : volKey e = volKey r
    · have hek : volKey e = k := he.trans h
      have hck : volKey (combineVol e r) = k := by rw [volKey_combineVol]; exact hek
      simp [addVolRecord, he, List.filter_cons, hek, hck, h]
    · have hek : ¬ (volKey e = k) := fun hk => he (hk.trans h.symm)
      simp [addVolRecord, he, List.filter_cons, hek, ih]

theorem foldl_addVolRecord_filter (k : Nat × String × String × String) :
    ∀ (l acc : List ParticipantVolume),
      (l.foldl addVolRecord acc).filter (fun x => volKey x = k) =
        mergeEntryG (acc.filter (fun x => volKey x = k)) (l.filter (fun x => volKey x = k)) := by
  intro l
  induction l with
  | nil =>
    intro acc
    cases h : acc.filter (fun x => volKey x = k) with
    | nil => simp [mergeEntryG, h]
    | cons e es => simp [mergeEntryG, h, foldCombine]
  | cons r rs ih =>
    intro acc
    simp only [List.foldl_cons]
    rw [ih (addVolRecord acc r)]
    by_cases hr : volKey r = k
    · rw [filter_addVolRecord_eq acc r k hr]
      cases hacc : acc.filter (fun x => volKey x = k) with
      | nil =>
        simp [List.filter_cons, hr, mergeEntryG]
      | cons e es =>
        simp [List.filter_cons, hr, mergeEntryG, foldCombine]
    · rw [filter_addVolRecord_ne acc r k hr]
      simp [List.filter_cons, hr]

theorem merge_volume_records_filter (lists : List (List ParticipantVolume))
    (k : Nat × String × String × String) :
    (merge_volume_records lists).filter (fun x => volKey x = k) =
      mergeEntryG [] (lists.flatten.filter (fun x => volKey x = k)) := by
  unfold merge_volume_records
  rw [foldl_addVolRecord_filter k lists.flatten []]
  simp

/-- Total of field `f` over the records of key `k` in a record list. -/
def keySum (f : ParticipantVolume → Rat) (k : Nat × String × String × String)
    (rs : List ParticipantVolume) : Rat :=
  ((rs.filter (fun r => volKey r = k)).map f).sum

theorem foldCombine_additive (f : ParticipantVolume → Rat)
    (hf : ∀ e r, f (combineVol e r) = f e + f r) :
    ∀ (rs : List ParticipantVolume) (e : ParticipantVolume),
      f (foldCombine e rs) = f e + (rs.map f).sum := by
  intro rs
  induction rs with
  | nil => intro e; simp [foldCombine]
  | cons r rs ih =>
    intro e
    simp only [foldCombine, List.foldl_cons] at ih ⊢
    rw [ih (combineVol e r), hf, List.map_cons, List.sum_cons]
    ring

theorem keySum_flatten (f : ParticipantVolume → Rat) (k : Nat × String × String × String)
    (lists : List (List ParticipantVolume)) :
    keySum f k lists.flatten = (lists.map (keySum f k)).sum := by
  induction lists with
  | nil => simp [keySum]
  | cons l ls ih =>
    simp only [List.flatten_cons, List.map_cons, List.sum_cons, ← ih, keySum,
      List.filter_append, List.map_append, List.sum_append]

theorem keySum_merge (f : ParticipantVolume → Rat)
    (hf : ∀ e r, f (combineVol e r) = f e + f r)
    (lists : List (List ParticipantVolume)) (k : Nat × String × String × String) :
    keySum f k (merge_volume_records lists) = (lists.map (keySum f k)).sum := by
  rw [← keySum_flatten]
  unfold keySum
  rw [merge_volume_records_filter]
  cases h : lists.flatten.filter (fun r => volKey r = k) with
  | nil => simp [mergeEntryG]
  | cons r rs =>
    have hone : (([foldCombine r rs]).map f).sum = f r + (rs.map f).sum := by
      simp [foldCombine_additive f hf rs r]
    simp only [mergeEntryG]
    rw [hone, List.map_cons, List.sum_cons]

/-- C3: merging [A, B] and [B, A] yields identical per-key combined totals
for each of the three numeric sub-fields (combined, day, night), and each
combined total is the sum of the per-list totals for that key. -/
theorem c3_merge_commutative_and_sum_preserving
    (A B : List ParticipantVolume) (k : Nat × String × String × String) :
    (keySum (fun r => r.volume) k (merge_volume_records [A, B])
        = keySum (fun r => r.volume) k (merge_volume_records [B, A])
      ∧ keySum (fun r => r.volume) k (merge_volume_records [A, B])
        = keySum (fun r => r.volume) k A + keySum (fun r => r.volume) k B)
    ∧ (keySum (fun r => r.volume_day) k (merge_volume_records [A, B])
        = keySum (fun r => r.volume_day) k (merge_volume_records [B, A])
      ∧ keySum (fun r => r.volume_day) k (merge_volume_records [A, B])
        = keySum (fun r => r.volume_day) k A + keySum (fun r => r.volume_day) k B)
    ∧ (keySum (fun r => r.volume_night) k (merge_volume_records [A, B])
        = keySum (fun r => r.volume_night) k (merge_volume_records [B, A])
      ∧ keySum (fun r => r.volume_night) k (merge_volume_records [A, B])
        = keySum (fun r => r.volume_night) k A + keySum (fun r => r.volume_night) k B) := by
  have main : ∀ (f : ParticipantVolume → Rat), (∀ e r, f (combineVol e r) = f e + f r) →
      keySum f k (merge_volume_records [A, B]) = keySum f k (merge_volume_records [B, A])
        ∧ keySum f k (merge_volume_records [A, B]) = keySum f k A + keySum f k B := by
    intro f hf
    have h1 := keySum_merge f hf [A, B] k
    have h2 := keySum_merge f hf [B, A] k
    simp only [List.map_cons, List.map_nil, List.sum_cons, List.sum_nil, add_zero] at h1 h2
    constructor
    · rw [h1, h2]; ring
    · exact h1
  refine ⟨main _ ?_, main _ ?_, main _ ?_⟩ <;> (intro e r; simp [combineVol])

/-- First non-empty string of a list (empty string when none). -/
def firstNonEmptyName (l : List String) : String :=
  match l.find? (fun s => s ≠ "") with
  | some s => s
  | none => ""

theorem firstNonEmptyName_nil : firstNonEmptyName [] = "" := rfl

theorem firstNonEmptyName_cons (s : String) (l : List String) :
    firstNonEmptyName (s :: l) = if s = "" then firstNonEmptyName l else s := by
  by_cases h : s = "" <;> simp [firstNonEmptyName, List.find?, h]

theorem foldCombine_name (g : ParticipantVolume → String)
    (hg : ∀ e r, g (combineVol e r) = if g e = "" ∧ g r ≠ "" then g r else g e) :
    ∀ (rs : List ParticipantVolume) (e : ParticipantVolume),
      g (foldCombine e rs) =
        if g e = "" then firstNonEmptyName (rs.map g) else g e := by
  intro rs
  induction rs with
  | nil =>
    intro e
    by_cases he : g e = "" <;> simp [foldCombine, firstNonEmptyName_nil, he]
  | cons r rs ih =>
    intro e
    simp only [foldCombine, List.foldl_cons] at ih ⊢
    rw [ih (combineVol e r), hg, List.map_cons, firstNonEmptyName_cons]
    by_cases he : g e = ""
    · by_cases hr : g r = ""
      · simp [he, hr]
      · simp [he, hr]
    · simp [he]

theorem merge_volume_records_mem_shape (lists : List (List ParticipantVolume))
    (m : ParticipantVolume) (h : m ∈ merge_volume_records lists) :
    ∃ r rs, lists.flatten.filter (fun x => volKey x = volKey m) = r :: rs
      ∧ m = foldCombine r rs := by
  have hm : m ∈ (merge_volume_records lists).filter (fun x => volKey x = volKey m) := by
    simp [List.mem_filter, h]
  rw [merge_volume_records_filter] at hm
  cases hf : lists.flatten.filter (fun x => volKey x = volKey m) with
  | nil => rw [hf] at hm; simp [mergeEntryG] at hm
  | cons r rs =>
    rw [hf] at hm
    simp only [mergeEntryG, List.mem_singleton] at hm
    exact ⟨r, rs, rfl, hm⟩

/-- Every record of a merged futures list carries, in each display-name
field, the first non-empty value among the same-key input records. -/
theorem merge_volume_records_names (lists : List (List ParticipantVolume))
    (m : ParticipantVolume) (h : m ∈ merge_volume_records lists) :
    m.participant_name_en = firstNonEmptyName
        ((lists.flatten.filter (fun x => volKey x = volKey m)).map
          (fun r => r.participant_name_en))
    ∧ m.participant_name_jp = firstNonEmptyName
        ((lists.flatten.filter (fun x => volKey x = volKey m)).map
          (fun r => r.participant_name_jp)) := by
  obtain ⟨r, rs, hf, hm⟩ := merge_volume_records_mem_shape lists m h
  rw [hf]
  constructor
  · rw [hm, foldCombine_name (fun r => r.participant_name_en) (by intro e r; rfl) rs r,
      List.map_cons, firstNonEmptyName_cons]
  · rw [hm, foldCombine_name (fun r => r.participant_name_jp) (by intro e r; rfl) rs r,
      List.map_cons, firstNonEmptyName_cons]

/-- models.OptionParticipantVolume: one participant's daily option volume. -/
structure OptionParticipantVolume where
  trade_date : Nat
  contract_month : String
  option_type : String
  strike_price : Int
  participant_id : String
  participant_name_en : String
  participant_name_jp : String
  rank : Int
  volume : Rat
  volume_day : Rat
  volume_night : Rat
deriving DecidableEq

/-- The dict key used by merge_option_volume_records. -/
def oVolKey (r : OptionParticipantVolume) : Nat × String × Int × String :=
  (r.trade_date, r.option_type, r.strike_price, r.participant_id)

/-- The in-place update branch of merge_option_volume_records: only the
three volume fields are touched, names are left as stored. -/
def combineOVol (e r : OptionParticipantVolume) : OptionParticipantVolume :=
  { e with
    volume := e.volume + r.volume
    volume_day := e.volume_day + r.volume_day
    volume_night := e.volume_night + r.volume_night }

def addOVolRecord : List OptionParticipantVolume → OptionParticipantVolume → List OptionParticipantVolume
  | [], r => [r]
  | e :: es, r =>
      if oVolKey e = oVolKey r then combineOVol e r :: es
      else e :: addOVolRecord es r

/-- parser_volume.merge_option_volume_records. -/
def merge_option_volume_records (lists : List (List OptionParticipantVolume)) :
    List OptionParticipantVolume :=
  lists.flatten.foldl addOVolRecord []

def foldCombineO (e : OptionParticipantVolume) (rs : List OptionParticipantVolume) :
    OptionParticipantVolume :=
  rs.foldl combineOVol e

def mergeEntryGO : List OptionParticipantVolume → List OptionParticipantVolume → List OptionParticipantVolume
  | [], [] => []
  | [], r :: rs => [foldCombineO r rs]
  | e :: es, rs => foldCombineO e rs :: es

theorem oVolKey_combineOVol (e r : OptionParticipantVolume) :
    oVolKey (combineOVol e r) = oVolKey e := rfl

theorem filter_addOVolRecord_ne (acc : List OptionParticipantVolume)
    (r : OptionParticipantVolume) (k : Nat × String × Int × String) (h : oVolKey r ≠ k) :
    (addOVolRecord acc r).filter (fun x => oVolKey x = k) =
      acc.filter (fun x => oVolKey x = k) := by
  induction acc with
  | nil => simp [addOVolRecord, List.filter, h]
  | cons e es ih =>
    by_cases he : oVolKey e = oVolKey r
    · simp only [addOVolRecord, he, if_pos rfl]
      have h1 : ¬ (oVolKey (combineOVol e r) = k) := by
        rw [oVolKey_combineOVol, he]; exact h
      have h2 : ¬ (oVolKey e = k) := by rw [he]; exact h
      simp [List.filter_cons, h1, h2]
    · simp only [addOVolRecord, if_neg he]
      by_cases hk : oVolKey e = k
      · simp [List.filter_cons, hk, ih]
      · simp [List.filter_cons, hk, ih]

theorem filter_addOVolRecord_eq (acc : List OptionParticipantVolume)
    (r : OptionParticipantVolume) (k : Nat × String × Int × String) (h : oVolKey r = k) :
    (addOVolRecord acc r).filter (fun x => oVolKey x = k) =
      (match acc.filter (fun x => oVolKey x = k) with
        | [] => [r]
        | e :: es => combineOVol e r :: es) := by
  induction acc with
  | nil => simp [addOVolRecord, List.filter, h]
  | cons e es ih =>
    by_cases he : oVolKey e = oVolKey r
    · have hek : oVolKey e = k := he.trans h
      have hck : oVolKey (combineOVol e r) = k := by rw [oVolKey_combineOVol]; exact hek
      simp [addOVolRecord, he, List.filter_cons, hek, hck, h]
    · have hek : ¬ (oVolKey e = k) := fun hk => he (hk.trans h.symm)
      simp [addOVolRecord, he, List.filter_cons, hek, ih]

theorem foldl_addOVolRecord_filter (k : Nat × String × Int × String) :
    ∀ (l acc : List OptionParticipantVolume),
      (l.foldl addOVolRecord acc).filter (fun x => oVolKey x = k) =
        mergeEntryGO (acc.filter (fun x => oVolKey x = k)) (l.filter (fun x => oVolKey x = k)) := by
  intro l
  induction l with
  | nil =>
    intro acc
    cases h : acc.filter (fun x => oVolKey x = k) with
    | nil => simp [mergeEntryGO, h]
    | cons e es => simp [mergeEntryGO, h, foldCombineO]
  | cons r rs ih =>
    intro acc
    simp only [List.foldl_cons]
    rw [ih (addOVolRecord acc r)]
    by_cases hr : oVolKey r = k
    · rw [filter_addOVolRecord_eq acc r k hr]
      cases hacc : acc.filter (fun x => oVolKey x = k) with
      | nil => simp [List.filter_cons, hr, mergeEntryGO]
      | cons e es => simp [List.filter_cons, hr, mergeEntryGO, foldCombineO]
    · rw [filter_addOVolRecord_ne acc r k hr]
      simp [List.filter_cons, hr]

theorem merge_option_volume_records_filter (lists : List (List OptionParticipantVolume))
    (k : Nat × String × Int × String) :
    (merge_option_volume_records lists).filter (fun x => oVolKey x = k) =
      mergeEntryGO [] (lists.flatten.filter (fun x => oVolKey x = k)) := by
  unfold merge_option_volume_records
  rw [foldl_addOVolRecord_filter k lists.flatten []]
  simp

theorem merge_option_volume_records_mem_shape (lists : List (List OptionParticipantVolume))
    (m : OptionParticipantVolume) (h : m ∈ merge_option_volume_records lists) :
    ∃ r rs, lists.flatten.filter (fun x => oVolKey x = oVolKey m) = r :: rs
      ∧ m = foldCombineO r rs := by
  have hm : m ∈ (merge_option_volume_records lists).filter (fun x => oVolKey x = oVolKey m) := by
    simp [List.mem_filter, h]
  rw [merge_option_volume_records_filter] at hm
  cases hf : lists.flatten.filter (fun x => oVolKey x = oVolKey m) with
  | nil => rw [hf] at hm; simp [mergeEntryGO] at hm
  | cons r rs =>
    rw [hf] at hm
    simp only [mergeEntryGO, List.mem_singleton] at hm
    exact ⟨r, rs, rfl, hm⟩

theorem foldCombineO_name_en (rs : List OptionParticipantVolume) (e : OptionParticipantVolume) :
    (foldCombineO e rs).participant_name_en = e.participant_name_en := by
  induction rs generalizing e with
  | nil => rfl
  | cons r rs ih => simp only [foldCombineO, List.foldl_cons] at ih ⊢; rw [ih]; rfl

theorem foldCombineO_name_jp (rs : List OptionParticipantVolume) (e : OptionParticipantVolume) :
    (foldCombineO e rs).participant_name_jp = e.participant_name_jp := by
  induction rs generalizing e with
  | nil => rfl
  | cons r rs ih => simp only [foldCombineO, List.foldl_cons] at ih ⊢; rw [ih]; rfl

/-- Long-only option record with an empty Latin name, first in file order. -/
def oRecNoName : OptionParticipantVolume :=
  ⟨1, "2602", "PUT", 53250, "11111", "", "", 1, 10, 10, 0⟩

/-- Same-key later record that does carry a non-empty Latin name. -/
def oRecNamed : OptionParticipantVolume :=
  ⟨1, "2602", "PUT", 53250, "11111", "ABC", "", 2, 5, 5, 0⟩

/-- C7 counterexample: merge_option_volume_records produces exactly one
record for the shared key, its Latin display name is the first record's
empty string, while the first non-empty value among the same-key inputs
is "ABC". -/
theorem c7_counterexample_option_names :
    (merge_option_volume_records [[oRecNoName, oRecNamed]]).map
        (fun r => r.participant_name_en) = [""]
    ∧ (merge_option_volume_records [[oRecNoName, oRecNamed]]).map
        (fun r => oVolKey r) = [oVolKey oRecNoName]
    ∧ firstNonEmptyName
        ((([[oRecNoName, oRecNamed]] : List (List OptionParticipantVolume)).flatten.filter
          (fun x => oVolKey x = oVolKey oRecNoName)).map
            (fun r => r.participant_name_en)) = "ABC" := by
  refine ⟨by decide, by decide, by decide⟩

/-- C7 (amended): in the futures merger every display-name field of a
merged record is the first non-empty value among the same-key input
records in input order; in the option-volume merger the names are instead
taken from the first same-key input record unconditionally, so a later
non-empty name never replaces an empty first value. -/
theorem c7_name_priority_amended :
    (∀ (lists : List (List ParticipantVolume)) (m : ParticipantVolume),
      m ∈ merge_volume_records lists →
        m.participant_name_en = firstNonEmptyName
            ((lists.flatten.filter (fun x => volKey x = volKey m)).map
              (fun r => r.participant_name_en))
        ∧ m.participant_name_jp = firstNonEmptyName
            ((lists.flatten.filter (fun x => volKey x = volKey m)).map
              (fun r => r.participant_name_jp)))
    ∧ (∀ (lists : List (List OptionParticipantVolume)) (m : OptionParticipantVolume),
      m ∈ merge_option_volume_records lists →
        m.participant_name_en =
          ((lists.flatten.filter (fun x => oVolKey x = oVolKey m)).map
            (fun r => r.participant_name_en)).headD ""
        ∧ m.participant_name_jp =
          ((lists.flatten.filter (fun x => oVolKey x = oVolKey m)).map
            (fun r => r.participant_name_jp)).headD "") := by
  constructor
  · exact merge_volume_records_names
  · intro lists m h
    obtain ⟨r, rs, hf, hm⟩ := merge_option_volume_records_mem_shape lists m h
    rw [hf, hm]
    constructor
    · rw [foldCombineO_name_en]; rfl
    · rw [foldCombineO_name_jp]; rfl

/-- Futures records exercising the name-priority rule concretely. -/
def fRecNoName : ParticipantVolume :=
  ⟨1, "NK225F", "2603", "11111", "", "NAMEJP", 1, 10, 10, 0⟩

def fRecNamed : ParticipantVolume :=
  ⟨1, "NK225F", "2603", "11111", "ABC", "", 2, 5, 5, 0⟩

/-- C7 amended claim checked on a concrete merge of two futures records. -/
theorem c7_name_priority_amended_witness :
    (combineVol fRecNoName fRecNamed).participant_name_en = firstNonEmptyName
        ((([[fRecNoName, fRecNamed]] : List (List ParticipantVolume)).flatten.filter
          (fun x => volKey x = volKey (combineVol fRecNoName fRecNamed))).map
            (fun r => r.participant_name_en)) :=
  (c7_name_priority_amended.1 [[fRecNoName, fRecNamed]]
    (combineVol fRecNoName fRecNamed)
    (by
      have h : merge_volume_records [[fRecNoName, fRecNamed]]
          = [combineVol fRecNoName fRecNamed] := rfl
      rw [h]
      exact List.mem_singleton_self _)).1

/-- models.ParticipantOI: one participant's open-interest position; the
two sides are nullable because a single file half carries only one side. -/
structure ParticipantOI where
  report_date : Nat
  product : String
  contract_month : String
  participant_id : String
  participant_name_jp : String
  long_volume : Option Rat
  short_volume : Option Rat
deriving DecidableEq

/-- The consolidation key of parser_oi._consolidate_long_short. -/
def oiKey (r : ParticipantOI) : String × String × String :=
  (r.product, r.contract_month, r.participant_id)

/-- The in-place update of _consolidate_long_short: a non-null side of the
new record overwrites the stored side, a null side leaves it alone. -/
def combineOI (e r : ParticipantOI) : ParticipantOI :=
  { e with
    long_volume := match r.long_volume with
      | some v => some v
      | none => e.long_volume
    short_volume := match r.short_volume with
      | some v => some v
      | none => e.short_volume }

def addOIRecord : List ParticipantOI → ParticipantOI → List ParticipantOI
  | [], r => [r]
  | e :: es, r =>
      if oiKey e = oiKey r then combineOI e r :: es
      else e :: addOIRecord es r

/-- parser_oi._consolidate_long_short: one record per key with both sides. -/
def consolidate_long_short (records : List ParticipantOI) : List ParticipantOI :=
  records.foldl addOIRecord []

theorem mem_addOIRecord (acc : List ParticipantOI) (r m : ParticipantOI)
    (h : m ∈ addOIRecord acc r) :
    m ∈ acc ∨ m = r ∨ ∃ e ∈ acc, oiKey e = oiKey r ∧ m = combineOI e r := by
  induction acc with
  | nil =>
    simp only [addOIRecord, List.mem_singleton] at h
    exact Or.inr (Or.inl h)
  | cons e es ih =>
    by_cases he : oiKey e = oiKey r
    · simp only [addOIRecord, if_pos he, List.mem_cons] at h
      rcases h with h | h
      · exact Or.inr (Or.inr ⟨e, List.mem_cons_self e es, he, h⟩)
      · exact Or.inl (List.mem_cons_of_mem e h)
    · simp only [addOIRecord, if_neg he, List.mem_cons] at h
      rcases h with h | h
      · exact Or.inl (h ▸ List.mem_cons_self e es)
      · rcases ih h with h2 | h2 | ⟨e2, he2, hk2, hm2⟩
        · exact Or.inl (List.mem_cons_of_mem e h2)
        · exact Or.inr (Or.inl h2)
        · exact Or.inr (Or.inr ⟨e2, List.mem_cons_of_mem e he2, hk2, hm2⟩)

/-- Any per-key Prop that is closed under `combineOI` of same-key records
holds for every consolidated record. -/
theorem consolidate_preserves (P : ParticipantOI → Prop)
    (hP : ∀ e r, oiKey e = oiKey r → P e → P r → P (combineOI e r)) :
    ∀ (l acc : List ParticipantOI), (∀ m ∈ acc, P m) → (∀ m ∈ l, P m) →
      ∀ m ∈ l.foldl addOIRecord acc, P m := by
  intro l
  induction l with
  | nil => intro acc hacc _ m hm; exact hacc m hm
  | cons r rs ih =>
    intro acc hacc hl m hm
    simp only [List.foldl_cons] at hm
    refine ih (addOIRecord acc r) ?_ (fun x hx => hl x (List.mem_cons_of_mem r hx)) m hm
    intro x hx
    rcases mem_addOIRecord acc r x hx with h | h | ⟨e, he, hk, hx2⟩
    · exact hacc x h
    · exact h ▸ hl r (List.mem_cons_self r rs)
    · exact hx2 ▸ hP e r hk (hacc e he) (hl r (List.mem_cons_self r rs))

theorem oiKey_combineOI (e r : ParticipantOI) : oiKey (combineOI e r) = oiKey e := rfl

/-- C5: consolidating exactly one long-only and one short-only record that
share a key yields exactly one record carrying both sides; and for a key
whose input records all lack one side, that side stays absent (never 0). -/
theorem c5_oi_consolidation (r1 r2 : ParticipantOI) (a b : Rat)
    (h1 : r1.long_volume = some a) (h2 : r1.short_volume = none)
    (h3 : r2.long_volume = none) (h4 : r2.short_volume = some b)
    (hk : oiKey r1 = oiKey r2) :
    consolidate_long_short [r1, r2]
      = [{ r1 with long_volume := some a, short_volume := some b }]
    ∧ (∀ (rs : List ParticipantOI) (k : String × String × String),
        (∀ r ∈ rs, oiKey r = k → r.short_volume = none) →
        ∀ r ∈ consolidate_long_short rs, oiKey r = k → r.short_volume = none)
    ∧ (∀ (rs : List ParticipantOI) (k : String × String × String),
        (∀ r ∈ rs, oiKey r = k → r.long_volume = none) →
        ∀ r ∈ consolidate_long_short rs, oiKey r = k → r.long_volume = none) := by
  refine ⟨?_, ?_, ?_⟩
  · simp only [consolidate_long_short, List.foldl_cons, List.foldl_nil, addOIRecord]
    rw [if_pos hk]
    simp [combineOI, h1, h3, h4]
  · intro rs k hin r hr hkr
    refine consolidate_preserves (fun x => oiKey x = k → x.short_volume = none)
      ?_ rs [] (by simp) hin r hr hkr
    intro e r2' hkey he hr2 hek
    have hr2k : oiKey r2' = k := by rw [← hkey]; exact hek
    simp only [combineOI, hr2 hr2k]
    exact he hek
  · intro rs k hin r hr hkr
    refine consolidate_preserves (fun x => oiKey x = k → x.long_volume = none)
      ?_ rs [] (by simp) hin r hr hkr
    intro e r2' hkey he hr2 hek
    have hr2k : oiKey r2' = k := by rw [← hkey]; exact hek
    simp only [combineOI, hr2 hr2k]
    exact he hek

/-- Concrete long-only and short-only halves of one participant's row. -/
def oiLongOnly : ParticipantOI := ⟨100, "NK225F", "2603", "11111", "社名", some 120, none⟩

def oiShortOnly : ParticipantOI := ⟨100, "NK225F", "2603", "11111", "社名", none, some 30⟩

/-- C5 applied to the concrete pair of one-sided records. -/
theorem c5_oi_consolidation_witness :
    consolidate_long_short [oiLongOnly, oiShortOnly]
      = [{ oiLongOnly with long_volume := some 120, short_volume := some 30 }] :=
  (c5_oi_consolidation oiLongOnly oiShortOnly 120 30 rfl rfl rfl rfl rfl).1

/-- Day-type session file keys: file trade date = actual market date. -/
def SESSION_DAY_KEYS : List String := ["WholeDay", "WholeDayJNet"]

/-- Night-type session file keys: file trade date = next business day. -/
def SESSION_NIGHT_KEYS : List String := ["Night", "NightJNet"]

/-- session_mode: the SESSION_ALL sentinel or an explicit tuple of keys. -/
inductive SessionMode where
  | all : SessionMode
  | keys (ks : List String) : SessionMode

/-- Abstraction of the fetcher + parser collaborators: the parsed record
lists per (file trade date, session key), the parsed OI records per report
date, and the trading-date enumeration used for the calendar index. -/
structure Env where
  tradingDates : List Nat
  volumeFile : Nat → String → List ParticipantVolume
  oiFile : Nat → List ParticipantOI

/-- _next_td_map built from consecutive positions of the trading-date list
(later bindings overwrite earlier ones, as in the Python dict). -/
def nextTDnat (dates : List Nat) (d : Nat) : Option Nat :=
  (((dates.zip dates.tail).filter (fun p => p.1 = d)).getLast?).map (fun p => p.2)

def nextTD (env : Env) (d : Nat) : Option Nat := nextTDnat env.tradingDates d

/-- Linear scan of _get_prev_trading_date: first position holding `d`,
then the element just before it. -/
def prevTDgo : Option Nat → List Nat → Nat → Option Nat
  | _, [], _ => none
  | prev, x :: xs, d => if x = d then prev else prevTDgo (some x) xs d

def prevTD (env : Env) (d : Nat) : Option Nat := prevTDgo none env.tradingDates d

/-- aggregator._load_oi_for_date: parsed OI records filtered by product. -/
def load_oi_for_date (env : Env) (d : Nat) (product : String) : List ParticipantOI :=
  (env.oiFile d).filter (fun r => r.product = product)

/-- aggregator._load_raw_session: per requested key, the parsed file
filtered by product; the per-file lists are merged and then filtered by
contract month. -/
def load_raw_session (env : Env) (d : Nat) (product contract_month : String)
    (file_keys : List String) : List ParticipantVolume :=
  (merge_volume_records
      (file_keys.map (fun k => (env.volumeFile d k).filter (fun r => r.product = product)))).filter
    (fun r => r.contract_month = contract_month)

/-- aggregator._redate_records (values after the in-place date rewrite). -/
def redate (records : List ParticipantVolume) (new_date : Nat) : List ParticipantVolume :=
  records.map (fun r => { r with trade_date := new_date })

/-- aggregator._load_volume_for_market_date: the night-session shift. -/
def load_volume_for_market_date (env : Env) (market_date : Nat)
    (product contract_month : String) (session_mode : SessionMode) : List ParticipantVolume :=
  match session_mode with
  | .all =>
    let day_records := load_raw_session env market_date product contract_month SESSION_DAY_KEYS
    let night_records := match nextTD env market_date with
      | some next_td =>
          redate (load_raw_session env next_td product contract_month SESSION_NIGHT_KEYS)
            market_date
      | none => []
    merge_volume_records [day_records, night_records]
  | .keys requested_keys =>
    if requested_keys.all (fun k => k ∈ SESSION_NIGHT_KEYS) then
      match nextTD env market_date with
      | none => []
      | some next_td =>
          redate (load_raw_session env next_td product contract_month requested_keys)
            market_date
    else
      load_raw_session env market_date product contract_month requested_keys

/-- Every merged record's key is the key of some input record. -/
theorem merge_volume_records_key_source (lists : List (List ParticipantVolume))
    (m : ParticipantVolume) (h : m ∈ merge_volume_records lists) :
    ∃ r ∈ lists.flatten, volKey r = volKey m := by
  obtain ⟨r, rs, hf, _⟩ := merge_volume_records_mem_shape lists m h
  have hr : r ∈ lists.flatten.filter (fun x => volKey x = volKey m) := by
    rw [hf]; exact List.mem_cons_self r rs
  rw [List.mem_filter] at hr
  exact ⟨r, hr.1, by simpa using hr.2⟩

theorem trade_date_of_volKey_eq {a b : ParticipantVolume} (h : volKey a = volKey b) :
    a.trade_date = b.trade_date :=
  congrArg (fun p => p.1) h

/-- Records coming out of a raw-session load have the trade date of some
record of one of the requested session files. -/
theorem load_raw_session_trade_date (env : Env) (d : Nat) (product cm : String)
    (file_keys : List String) (hfiles : ∀ k ∈ file_keys, ∀ r ∈ env.volumeFile d k, r.trade_date = d) :
    ∀ r ∈ load_raw_session env d product cm file_keys, r.trade_date = d := by
  intro r hr
  unfold load_raw_session at hr
  rw [List.mem_filter] at hr
  obtain ⟨r2, hr2, hkey⟩ := merge_volume_records_key_source _ r hr.1
  rw [List.mem_flatten] at hr2
  obtain ⟨li, hli, hr2i⟩ := hr2
  rw [List.mem_map] at hli
  obtain ⟨k, hk, hlik⟩ := hli
  rw [← hlik, List.mem_filter] at hr2i
  rw [← trade_date_of_volKey_eq hkey]
  exact hfiles k hk r2 hr2i.1

/-- C2: under ALL-session resolution, day-type files are loaded at the
market date and night-type files at the successor trading date with every
record re-dated to the market date, so every resulting record is keyed at
the market date and never at the successor; with no known successor the
night contribution is empty (no error). -/
theorem c2_all_session_keyed_at_market_date (env : Env) (d : Nat) (product cm : String)
    (hday : ∀ k ∈ SESSION_DAY_KEYS, ∀ r ∈ env.volumeFile d k, r.trade_date = d) :
    (∀ r ∈ load_volume_for_market_date env d product cm SessionMode.all, r.trade_date = d)
    ∧ (∀ d2, nextTD env d = some d2 →
        load_volume_for_market_date env d product cm SessionMode.all
          = merge_volume_records [load_raw_session env d product cm SESSION_DAY_KEYS,
              redate (load_raw_session env d2 product cm SESSION_NIGHT_KEYS) d]
        ∧ (d2 ≠ d → ∀ r ∈ load_volume_for_market_date env d product cm SessionMode.all,
            r.trade_date ≠ d2))
    ∧ (nextTD env d = none →
        load_volume_for_market_date env d product cm SessionMode.all
          = merge_volume_records [load_raw_session env d product cm SESSION_DAY_KEYS, []]) := by
  have hmain : ∀ r ∈ load_volume_for_market_date env d product cm SessionMode.all,
      r.trade_date = d := by
    intro r hr
    unfold load_volume_for_market_date at hr
    obtain ⟨r2, hr2, hkey⟩ := merge_volume_records_key_source _ r hr
    rw [List.mem_flatten] at hr2
    obtain ⟨li, hli, hr2i⟩ := hr2
    rw [← trade_date_of_volKey_eq hkey]
    simp only [List.mem_cons, List.not_mem_nil, or_false] at hli
    rcases hli with hli | hli
    · subst hli
      exact load_raw_session_trade_date env d product cm SESSION_DAY_KEYS hday r2 hr2i
    · subst hli
      cases hnext : nextTD env d with
      | none => rw [hnext] at hr2i; simp at hr2i
      | some d2 =>
        rw [hnext] at hr2i
        simp only [redate, List.mem_map] at hr2i
        obtain ⟨r3, _, hr3⟩ := hr2i
        rw [← hr3]
  refine ⟨hmain, ?_, ?_⟩
  · intro d2 h2
    refine ⟨by simp [load_volume_for_market_date, h2], ?_⟩
    intro hne r hr
    rw [hmain r hr]
    exact fun h => hne (h.symm)
  · intro h2
    simp [load_volume_for_market_date, h2]

/-- Day-session record filed under trade date 5 in the WholeDay file. -/
def pvDayRec : ParticipantVolume := ⟨5, "NK225F", "2603", "11111", "ABC", "", 1, 10, 10, 0⟩

/-- Night-session record for market date 5, filed under trade date 6. -/
def pvNightRec : ParticipantVolume := ⟨6, "NK225F", "2603", "11111", "ABC", "", 1, 7, 0, 7⟩

/-- Environment with trading dates 5 and 6, one day file and one night
file, for exercising the ALL-session resolution concretely. -/
def envC2 : Env where
  tradingDates := [5, 6]
  volumeFile := fun d k =>
    if d = 5 ∧ k = "WholeDay" then [pvDayRec]
    else if d = 6 ∧ k = "Night" then [pvNightRec]
    else []
  oiFile := fun _ => []

/-- The single (day + re-dated night) merged record at market date 5. -/
def mvRecC2 : ParticipantVolume :=
  (load_volume_for_market_date envC2 5 "NK225F" "2603" SessionMode.all).headD pvDayRec

theorem load_volume_envC2_eval :
    load_volume_for_market_date envC2 5 "NK225F" "2603" SessionMode.all = [mvRecC2] := rfl

/-- C2 applied to the concrete two-date environment at market date 5. -/
theorem c2_all_session_keyed_at_market_date_witness :
    mvRecC2.trade_date = 5
    ∧ load_volume_for_market_date envC2 5 "NK225F" "2603" SessionMode.all
        = merge_volume_records [load_raw_session envC2 5 "NK225F" "2603" SESSION_DAY_KEYS,
            redate (load_raw_session envC2 6 "NK225F" "2603" SESSION_NIGHT_KEYS) 5] := by
  have h := c2_all_session_keyed_at_market_date envC2 5 "NK225F" "2603" (by decide)
  refine ⟨h.1 mvRecC2 ?_, (h.2.1 6 (by decide)).1⟩
  rw [load_volume_envC2_eval]
  exact List.mem_singleton_self _

theorem insertOrd_perm {α : Type} (gt : α → α → Bool) (x : α) (l : List α) :
    List.Perm (insertOrd gt x l) (x :: l) := by
  induction l with
  | nil => exact List.Perm.refl _
  | cons y ys ih =>
    by_cases h : gt x y
    · simp [insertOrd, h]
    · simp only [insertOrd, h, Bool.false_eq_true, if_false]
      exact (List.Perm.cons y ih).trans (List.Perm.swap x y ys)

theorem sortOrd_perm {α : Type} (gt : α → α → Bool) (l : List α) :
    List.Perm (sortOrd gt l) l := by
  induction l with
  | nil => exact List.Perm.refl _
  | cons x xs ih =>
    exact (insertOrd_perm gt x (sortOrd gt xs)).trans (List.Perm.cons x ih)

theorem mem_sortOrd {α : Type} (gt : α → α → Bool) (l : List α) (a : α) :
    a ∈ sortOrd gt l ↔ a ∈ l :=
  (sortOrd_perm gt l).mem_iff

/-- models.WeekDefinition. -/
structure WeekDefinition where
  start_oi_date : Nat
  end_oi_date : Option Nat
  trading_days : List Nat
  label : String
deriving DecidableEq

/-- models.WeeklyParticipantRow. -/
structure WeeklyParticipantRow where
  participant_id : String
  participant_name : String
  start_oi_long : Option Rat
  start_oi_short : Option Rat
  start_oi_net : Option Rat
  daily_volumes : List (Nat × Rat)
  end_oi_long : Option Rat
  end_oi_short : Option Rat
  end_oi_net : Option Rat
  oi_net_change : Option Rat
  inferred_direction : Option String
  avg_20d : Option Rat
  max_20d : Option Rat
deriving DecidableEq, Inhabited

/-- Python `x if x else 0.0` on an optional float (None and 0.0 are falsy). -/
def orZero : Option Rat → Rat
  | none => 0
  | some x => if x = 0 then 0 else x

/-- Dict comprehension `{key(r): r for r in rs}`: later records overwrite. -/
def dictBy {κ α : Type} [DecidableEq κ] (key : α → κ) (rs : List α) : List (κ × α) :=
  rs.foldl (fun d r => dinsert (key r) r d) []

/-- Step 1 of load_weekly_data: the start-OI snapshot indexed by id. -/
def weekStartOIDict (env : Env) (week : WeekDefinition) (product cm : String)
    (include_oi : Bool) : List (String × ParticipantOI) :=
  if include_oi then
    dictBy (fun r => r.participant_id)
      ((load_oi_for_date env week.start_oi_date product).filter
        (fun r => r.contract_month = cm))
  else []

/-- Step 1 of load_weekly_data: the end-OI snapshot indexed by id (empty
for the in-progress week). -/
def weekEndOIDict (env : Env) (week : WeekDefinition) (product cm : String)
    (include_oi : Bool) : List (String × ParticipantOI) :=
  if include_oi then
    match week.end_oi_date with
    | some d =>
      dictBy (fun r => r.participant_id)
        ((load_oi_for_date env d product).filter (fun r => r.contract_month = cm))
    | none => []
  else []

/-- Step 2 of load_weekly_data: per trading day, the resolved volume
records indexed by id. -/
def weekDailyDict (env : Env) (week : WeekDefinition) (product cm : String)
    (mode : SessionMode) : List (Nat × List (String × ParticipantVolume)) :=
  week.trading_days.foldl (fun acc td =>
    dinsert td (dictBy (fun r => r.participant_id)
      (load_volume_for_market_date env td product cm mode)) acc) []

/-- Step 4 of load_weekly_data: _build_name_lookup for one id (daily
Latin name, last day wins, over the OI Japanese name). -/
def buildNameLookup (daily_volumes : List (Nat × List (String × ParticipantVolume)))
    (start_oi end_oi : List (String × ParticipantOI)) (pid : String) : Option String :=
  let oiRec : Option ParticipantOI :=
    match dget pid end_oi with
    | some r => some r
    | none => dget pid start_oi
  let oiName : Option String :=
    match oiRec with
    | some r => if r.participant_name_jp = "" then none else some r.participant_name_jp
    | none => none
  let dailyNames : List String := daily_volumes.filterMap (fun p =>
    match dget pid p.2 with
    | some pv => if pv.participant_name_en = "" then none else some pv.participant_name_en
    | none => none)
  match dailyNames.getLast? with
  | some n => some n
  | none => oiName

/-- Step 5 of load_weekly_data: the row assembled for one participant. -/
def mkWeeklyRow (week : WeekDefinition)
    (start_oi end_oi : List (String × ParticipantOI))
    (daily_volumes : List (Nat × List (String × ParticipantVolume)))
    (nameF : String → Option String) (pid : String) : WeeklyParticipantRow :=
  let s_oi := dget pid start_oi
  let e_oi := dget pid end_oi
  let s_long := match s_oi with | none => 0 | some r => orZero r.long_volume
  let s_short := match s_oi with | none => 0 | some r => orZero r.short_volume
  let s_net := s_long - s_short
  let e_long := match e_oi with | none => 0 | some r => orZero r.long_volume
  let e_short := match e_oi with | none => 0 | some r => orZero r.short_volume
  let e_net := e_long - e_short
  let dvols : List (Nat × Rat) := week.trading_days.foldl (fun m td =>
    match dget td daily_volumes with
    | some day_data =>
      match dget pid day_data with
      | some pv => dinsert td pv.volume m
      | none => m
    | none => m) []
  let has_both_oi := s_oi.isSome && e_oi.isSome
  { participant_id := pid
    participant_name := (nameF pid).getD pid
    start_oi_long := if s_oi.isSome then some s_long else none
    start_oi_short := if s_oi.isSome then some s_short else none
    start_oi_net := if s_oi.isSome then some s_net else none
    daily_volumes := dvols
    end_oi_long := if e_oi.isSome then some e_long else none
    end_oi_short := if e_oi.isSome then some e_short else none
    end_oi_net := if e_oi.isSome then some e_net else none
    oi_net_change := if has_both_oi then some (e_net - s_net) else none
    inferred_direction :=
      if has_both_oi then
        if e_net - s_net > 0 then some "BUY"
        else if e_net - s_net < 0 then some "SELL"
        else some "NEUTRAL"
      else none
    avg_20d := none
    max_20d := none }

/-- Step 3 of load_weekly_data: all participant ids seen in any source
(the Python set, modelled in first-seen order). -/
def weekAllPids (start_oi end_oi : List (String × ParticipantOI))
    (daily_volumes : List (Nat × List (String × ParticipantVolume))) : List String :=
  ((start_oi.map (fun p => p.1)) ++ (end_oi.map (fun p => p.1))
    ++ (daily_volumes.map (fun p => p.2.map (fun q => q.1))).flatten).dedup

/-- aggregator.load_weekly_data: weekly per-participant aggregation with
rows sorted by total weekly volume descending (stable). -/
def load_weekly_data (env : Env) (week : WeekDefinition) (product contract_month : String)
    (session_keys : SessionMode) (include_oi : Bool) : List WeeklyParticipantRow :=
  let start_oi := weekStartOIDict env week product contract_month include_oi
  let end_oi := weekEndOIDict env week product contract_month include_oi
  let daily_volumes := weekDailyDict env week product contract_month session_keys
  let rows := (weekAllPids start_oi end_oi daily_volumes).map (fun pid =>
    mkWeeklyRow week start_oi end_oi daily_volumes
      (buildNameLookup daily_volumes start_oi end_oi) pid)
  sortOrd (fun a b =>
    decide ((a.daily_volumes.map (fun p => p.2)).sum
      > (b.daily_volumes.map (fun p => p.2)).sum)) rows

theorem load_weekly_data_mem_shape (env : Env) (week : WeekDefinition)
    (product cm : String) (mode : SessionMode) (incl : Bool) (row : WeeklyParticipantRow)
    (h : row ∈ load_weekly_data env week product cm mode incl) :
    ∃ pid, row = mkWeeklyRow week (weekStartOIDict env week product cm incl)
      (weekEndOIDict env week product cm incl) (weekDailyDict env week product cm mode)
      (buildNameLookup (weekDailyDict env week product cm mode)
        (weekStartOIDict env week product cm incl) (weekEndOIDict env week product cm incl))
      pid := by
  unfold load_weekly_data at h
  rw [mem_sortOrd, List.mem_map] at h
  obtain ⟨pid, _, hpid⟩ := h
  exact ⟨pid, hpid.symm⟩

theorem mkWeeklyRow_direction_spec (week : WeekDefinition)
    (start_oi end_oi : List (String × ParticipantOI))
    (daily_volumes : List (Nat × List (String × ParticipantVolume)))
    (nameF : String → Option String) (pid : String) :
    ((mkWeeklyRow week start_oi end_oi daily_volumes nameF pid).inferred_direction.isSome
      ↔ (mkWeeklyRow week start_oi end_oi daily_volumes nameF pid).start_oi_net.isSome
        ∧ (mkWeeklyRow week start_oi end_oi daily_volumes nameF pid).end_oi_net.isSome)
    ∧ ((mkWeeklyRow week start_oi end_oi daily_volumes nameF pid).oi_net_change.isSome
      ↔ (mkWeeklyRow week start_oi end_oi daily_volumes nameF pid).inferred_direction.isSome)
    ∧ (∀ c : Rat,
        (mkWeeklyRow week start_oi end_oi daily_volumes nameF pid).oi_net_change = some c →
        (((mkWeeklyRow week start_oi end_oi daily_volumes nameF pid).inferred_direction
            = some "BUY" ↔ 0 < c)
          ∧ ((mkWeeklyRow week start_oi end_oi daily_volumes nameF pid).inferred_direction
            = some "SELL" ↔ c < 0)
          ∧ ((mkWeeklyRow week start_oi end_oi daily_volumes nameF pid).inferred_direction
            = some "NEUTRAL" ↔ c = 0))) := by
  cases hs : dget pid start_oi with
  | none =>
    simp [mkWeeklyRow, hs]
  | some sr =>
    cases he : dget pid end_oi with
    | none => simp [mkWeeklyRow, hs, he]
    | some er =>
      simp only [mkWeeklyRow, hs, he, Option.isSome_some, Bool.and_self, if_true,
        Bool.and_true, true_and, and_true, iff_true]
      set net : Rat := (orZero er.long_volume - orZero er.short_volume)
        - (orZero sr.long_volume - orZero sr.short_volume) with hnet
      refine ⟨?_, ?_, ?_⟩
      · split_ifs <;> simp
      · split_ifs <;> simp
      · intro c hc
        have hcn : net = c := by simpa using hc
        subst hcn
        by_cases h1 : net > 0
        · simp only [if_pos h1]
          refine ⟨by simpa using h1, ?_, ?_⟩
          · simp only [Option.some_inj]
            constructor
            · intro hx; exact absurd hx (by decide)
            · intro hx; exact absurd h1 (by simp [asymm hx])
          · simp only [Option.some_inj]
            constructor
            · intro hx; exact absurd hx (by decide)
            · intro hx; rw [hx] at h1; exact absurd h1 (lt_irrefl 0)
        · simp only [if_neg h1]
          by_cases h2 : net < 0
          · simp only [if_pos h2]
            refine ⟨?_, by simpa using h2, ?_⟩
            · simp only [Option.some_inj]
              constructor
              · intro hx; exact absurd hx (by decide)
              · intro hx; exact absurd hx (fun hgt => h1 hgt)
            · simp only [Option.some_inj]
              constructor
              · intro hx; exact absurd hx (by decide)
              · intro hx; rw [hx] at h2; exact absurd h2 (lt_irrefl 0)
          · simp only [if_neg h2]
            have h0 : net = 0 := le_antisymm (not_lt.mp h1) (not_lt.mp h2)
            refine ⟨?_, ?_, by simp [h0]⟩
            · simp only [Option.some_inj]
              constructor
              · intro hx; exact absurd hx (by decide)
              · intro hx; rw [h0] at hx; exact absurd hx (lt_irrefl 0)
            · simp only [Option.some_inj]
              constructor
              · intro hx; exact absurd hx (by decide)
              · intro hx; rw [h0] at hx; exact absurd hx (lt_irrefl 0)

/-- C1: for every generated row, the inferred direction is present iff
both OI nets are present (iff both OI records exist), the OI net change
is present iff the direction is, and the direction is BUY / SELL /
NEUTRAL exactly for positive / negative / zero net change. -/
theorem c1_direction_invariant (env : Env) (week : WeekDefinition) (product cm : String)
    (mode : SessionMode) (incl : Bool) (row : WeeklyParticipantRow)
    (h : row ∈ load_weekly_data env week product cm mode incl) :
    (row.inferred_direction.isSome ↔ row.start_oi_net.isSome ∧ row.end_oi_net.isSome)
    ∧ (row.oi_net_change.isSome ↔ row.inferred_direction.isSome)
    ∧ (∀ c : Rat, row.oi_net_change = some c →
        ((row.inferred_direction = some "BUY" ↔ 0 < c)
          ∧ (row.inferred_direction = some "SELL" ↔ c < 0)
          ∧ (row.inferred_direction = some "NEUTRAL" ↔ c = 0))) := by
  obtain ⟨pid, hrow⟩ := load_weekly_data_mem_shape env week product cm mode incl row h
  rw [hrow]
  exact mkWeeklyRow_direction_spec _ _ _ _ _ _

/-- Start-OI snapshot record (report date 10): net long 60. -/
def oiStartRec : ParticipantOI := ⟨10, "NK225F", "2603", "11111", "名称", some 100, some 40⟩

/-- End-OI snapshot record (report date 17): net long 90. -/
def oiEndRec : ParticipantOI := ⟨17, "NK225F", "2603", "11111", "名称", some 120, some 30⟩

/-- Environment with both OI snapshots present and no volume files. -/
def envWeekly : Env where
  tradingDates := [11, 12]
  volumeFile := fun _ _ => []
  oiFile := fun d =>
    if d = 10 then [oiStartRec] else if d = 17 then [oiEndRec] else []

/-- A completed week bounded by the two snapshots. -/
def weekDone : WeekDefinition := ⟨10, some 17, [11, 12], "w"⟩

/-- The single row the concrete completed week produces. -/
def rowDone : WeeklyParticipantRow :=
  (load_weekly_data envWeekly weekDone "NK225F" "2603" SessionMode.all true).headD default

theorem load_weekly_data_envWeekly_eval :
    load_weekly_data envWeekly weekDone "NK225F" "2603" SessionMode.all true = [rowDone] := rfl

/-- C1 applied to the row of the concrete completed week. -/
theorem c1_direction_invariant_witness :
    (rowDone.inferred_direction.isSome
      ↔ rowDone.start_oi_net.isSome ∧ rowDone.end_oi_net.isSome)
    ∧ (rowDone.oi_net_change.isSome ↔ rowDone.inferred_direction.isSome) :=
  ⟨(c1_direction_invariant envWeekly weekDone "NK225F" "2603" SessionMode.all true rowDone
      (by rw [load_weekly_data_envWeekly_eval]; exact List.mem_singleton_self _)).1,
    (c1_direction_invariant envWeekly weekDone "NK225F" "2603" SessionMode.all true rowDone
      (by rw [load_weekly_data_envWeekly_eval]; exact List.mem_singleton_self _)).2.1⟩

theorem mkWeeklyRow_no_end (week : WeekDefinition)
    (start_oi end_oi : List (String × ParticipantOI))
    (daily_volumes : List (Nat × List (String × ParticipantVolume)))
    (nameF : String → Option String) (pid : String)
    (he : dget pid end_oi = none) :
    (mkWeeklyRow week start_oi end_oi daily_volumes nameF pid).oi_net_change = none
    ∧ (mkWeeklyRow week start_oi end_oi daily_volumes nameF pid).inferred_direction = none := by
  simp [mkWeeklyRow, he]

theorem weekEndOIDict_of_none (env : Env) (week : WeekDefinition) (product cm : String)
    (incl : Bool) (h : week.end_oi_date = none) :
    weekEndOIDict env week product cm incl = [] := by
  cases incl <;> simp [weekEndOIDict, h]

/-- C4: for an in-progress week (no end-OI date) every generated row has
both the OI net change and the direction absent, regardless of volumes. -/
theorem c4_in_progress_week_non_fabrication (env : Env) (week : WeekDefinition)
    (product cm : String) (mode : SessionMode) (incl : Bool)
    (h : week.end_oi_date = none) :
    ∀ row ∈ load_weekly_data env week product cm mode incl,
      row.oi_net_change = none ∧ row.inferred_direction = none := by
  intro row hrow
  obtain ⟨pid, hpid⟩ := load_weekly_data_mem_shape env week product cm mode incl row hrow
  rw [hpid]
  refine mkWeeklyRow_no_end _ _ _ _ _ _ ?_
  rw [weekEndOIDict_of_none env week product cm incl h]
  rfl

/-- Volume record giving the participant daily activity in the
in-progress week. -/
def pvActive : ParticipantVolume := ⟨11, "NK225F", "2603", "11111", "ABC", "", 1, 40, 40, 0⟩

/-- Environment for the in-progress week: a start snapshot exists and the
participant trades, but no end snapshot has been published. -/
def envInProgress : Env where
  tradingDates := [11, 12]
  volumeFile := fun d k => if d = 11 ∧ k = "WholeDay" then [pvActive] else []
  oiFile := fun d => if d = 10 then [oiStartRec] else []

/-- The in-progress week: end_oi_date is absent. -/
def weekInProgress : WeekDefinition := ⟨10, none, [11, 12], "w"⟩

/-- The single row of that in-progress week. -/
def rowInProgress : WeeklyParticipantRow :=
  (load_weekly_data envInProgress weekInProgress "NK225F" "2603" SessionMode.all true).headD
    default

theorem load_weekly_data_envInProgress_eval :
    load_weekly_data envInProgress weekInProgress "NK225F" "2603" SessionMode.all true
      = [rowInProgress] := rfl

/-- C4 applied to the concrete in-progress week. -/
theorem c4_in_progress_week_non_fabrication_witness :
    rowInProgress.oi_net_change = none ∧ rowInProgress.inferred_direction = none :=
  c4_in_progress_week_non_fabrication envInProgress weekInProgress "NK225F" "2603"
    SessionMode.all true rfl rowInProgress
    (by rw [load_weekly_data_envInProgress_eval]; exact List.mem_singleton_self _)

/-- The 20-day lookback window of compute_20d_stats: all trading dates up
to and including the week's last day, keeping the last 20. -/
def lookbackDates (env : Env) (week : WeekDefinition) : List Nat :=
  match week.trading_days.getLast? with
  | none => []
  | some week_end =>
    let candidates := env.tradingDates.filter (fun d => d ≤ week_end)
    candidates.drop (candidates.length - 20)

/-- Python `max(volumes)` on a non-empty list (0 for the empty list,
which compute_20d_stats never produces). -/
def maxOfList : List Rat → Rat
  | [] => 0
  | x :: xs => xs.foldl max x

/-- aggregator.compute_20d_stats: per participant, (average over the full
lookback window, maximum) of the daily volumes recorded in the window. -/
def compute_20d_stats (env : Env) (week : WeekDefinition) (product cm : String)
    (mode : SessionMode) : List (String × (Rat × Rat)) :=
  if week.trading_days = [] then []
  else
    let lookback := lookbackDates env week
    if lookback = [] then []
    else
      let pid_daily : List (String × List Rat) :=
        lookback.foldl (fun acc td =>
          (load_volume_for_market_date env td product cm mode).foldl
            (fun acc2 r => dappend acc2 r.participant_id r.volume) acc) []
      pid_daily.map (fun p => (p.1, (p.2.sum / ((lookback.length : Nat) : Rat), maxOfList p.2)))

/-- The value list accumulated under key `k` (empty when absent). -/
def dvals {κ α : Type} [DecidableEq κ] (k : κ) (l : List (κ × List α)) : List α :=
  (dget k l).getD []

theorem dget_dappend {κ α : Type} [DecidableEq κ] (l : List (κ × List α)) (k2 k : κ) (v : α) :
    dget k (dappend l k2 v)
      = if k2 = k then some ((dget k l).getD [] ++ [v]) else dget k l := by
  induction l with
  | nil => by_cases h : k2 = k <;> simp [dappend, dget, h]
  | cons p rest ih =>
    obtain ⟨pk, pvs⟩ := p
    by_cases hp2 : pk = k2
    · subst hp2
      by_cases hpk : pk = k
      · subst hpk
        simp [dappend, dget]
      · simp [dappend, dget, hpk]
    · by_cases hpk : pk = k
      · subst hpk
        have hk2 : ¬ (k2 = pk) := fun h => hp2 h.symm
        simp [dappend, hp2, dget, hk2]
      · simp [dappend, hp2, dget, hpk, ih]

theorem dvals_dappend {κ α : Type} [DecidableEq κ] (l : List (κ × List α)) (k2 k : κ) (v : α) :
    dvals k (dappend l k2 v) = dvals k l ++ (if k2 = k then [v] else []) := by
  unfold dvals
  rw [dget_dappend]
  by_cases h : k2 = k <;> simp [h]

theorem dvals_fold_records (k : String) (records : List ParticipantVolume) :
    ∀ acc : List (String × List Rat),
      dvals k (records.foldl (fun acc2 r => dappend acc2 r.participant_id r.volume) acc)
        = dvals k acc
          ++ ((records.filter (fun r => r.participant_id = k)).map (fun r => r.volume)) := by
  induction records with
  | nil => intro acc; simp
  | cons r rs ih =>
    intro acc
    simp only [List.foldl_cons]
    rw [ih (dappend acc r.participant_id r.volume), dvals_dappend]
    by_cases h : r.participant_id = k
    · simp [List.filter_cons, h, List.append_assoc]
    · simp [List.filter_cons, h]

theorem dvals_fold_dates (env : Env) (product cm : String) (mode : SessionMode) (k : String)
    (dates : List Nat) :
    ∀ acc : List (String × List Rat),
      dvals k (dates.foldl (fun acc td =>
          (load_volume_for_market_date env td product cm mode).foldl
            (fun acc2 r => dappend acc2 r.participant_id r.volume) acc) acc)
        = dvals k acc
          ++ (dates.map (fun td =>
              ((load_volume_for_market_date env td product cm mode).filter
                (fun r => r.participant_id = k)).map (fun r => r.volume))).flatten := by
  induction dates with
  | nil => intro acc; simp
  | cons d ds ih =>
    intro acc
    simp only [List.foldl_cons]
    rw [ih, dvals_fold_records, List.map_cons, List.flatten_cons, List.append_assoc]

theorem keys_dappend {κ α : Type} [DecidableEq κ] (l : List (κ × List α)) (k : κ) (v : α) :
    ∀ q ∈ dappend l k v, q.1 ∈ l.map (fun p => p.1) ∨ q.1 = k := by
  induction l with
  | nil =>
    intro q hq
    simp only [dappend, List.mem_singleton] at hq
    exact Or.inr (by rw [hq])
  | cons p rest ih =>
    obtain ⟨pk, pvs⟩ := p
    intro q hq
    by_cases hp : pk = k
    · rw [show dappend ((pk, pvs) :: rest) k v = (pk, pvs ++ [v]) :: rest by
        simp [dappend, hp]] at hq
      rcases List.mem_cons.mp hq with h | h
      · subst h; left; simp
      · exact Or.inl (List.mem_map_of_mem _ (List.mem_cons_of_mem (pk, pvs) h))
    · rw [show dappend ((pk, pvs) :: rest) k v = (pk, pvs) :: dappend rest k v by
        simp [dappend, hp]] at hq
      rcases List.mem_cons.mp hq with h | h
      · subst h; left; simp
      · rcases ih q h with h2 | h2
        · left
          simp only [List.map_cons, List.mem_cons]
          exact Or.inr h2
        · exact Or.inr h2

theorem keysNodup_dappend {κ α : Type} [DecidableEq κ] (l : List (κ × List α)) (k : κ) (v : α)
    (h : l.Pairwise (fun a b => a.1 ≠ b.1)) :
    (dappend l k v).Pairwise (fun a b => a.1 ≠ b.1) := by
  induction l with
  | nil => simp [dappend]
  | cons p rest ih =>
    obtain ⟨pk, pvs⟩ := p
    rw [List.pairwise_cons] at h
    by_cases hp : pk = k
    · rw [show dappend ((pk, pvs) :: rest) k v = (pk, pvs ++ [v]) :: rest by
        simp [dappend, hp]]
      rw [List.pairwise_cons]
      exact ⟨h.1, h.2⟩
    · rw [show dappend ((pk, pvs) :: rest) k v = (pk, pvs) :: dappend rest k v by
        simp [dappend, hp]]
      rw [List.pairwise_cons]
      refine ⟨?_, ih h.2⟩
      intro q hq
      rcases keys_dappend rest k v q hq with h2 | h2
      · rw [List.mem_map] at h2
        obtain ⟨b, hb, hbq⟩ := h2
        rw [← hbq]
        exact h.1 b hb
      · rw [h2]; exact hp

theorem dget_of_mem_keysNodup {κ α : Type} [DecidableEq κ] (l : List (κ × α))
    (hnd : l.Pairwise (fun a b => a.1 ≠ b.1)) (k : κ) (v : α) (h : (k, v) ∈ l) :
    dget k l = some v := by
  induction l with
  | nil => simp at h
  | cons p rest ih =>
    obtain ⟨pk, pv⟩ := p
    rw [List.pairwise_cons] at hnd
    rcases List.mem_cons.mp h with h2 | h2
    · have hk : pk = k := by rw [Prod.mk.injEq] at h2; exact h2.1.symm
      have hv : pv = v := by rw [Prod.mk.injEq] at h2; exact h2.2.symm
      simp [dget, hk, hv]
    · have hk : ¬ (pk = k) := by
        intro hkk
        exact (hkk ▸ hnd.1 (k, v) h2) rfl
      simp [dget, hk, ih hnd.2 h2]

theorem keysNodup_fold_records (records : List ParticipantVolume)
    (acc : List (String × List Rat)) (h : acc.Pairwise (fun a b => a.1 ≠ b.1)) :
    (records.foldl (fun acc2 r => dappend acc2 r.participant_id r.volume) acc).Pairwise
      (fun a b => a.1 ≠ b.1) := by
  induction records generalizing acc with
  | nil => exact h
  | cons r rs ih =>
    simp only [List.foldl_cons]
    exact ih _ (keysNodup_dappend acc r.participant_id r.volume h)

theorem keysNodup_fold_dates (env : Env) (product cm : String) (mode : SessionMode)
    (dates : List Nat) (acc : List (String × List Rat))
    (h : acc.Pairwise (fun a b => a.1 ≠ b.1)) :
    (dates.foldl (fun acc td =>
        (load_volume_for_market_date env td product cm mode).foldl
          (fun acc2 r => dappend acc2 r.participant_id r.volume) acc) acc).Pairwise
      (fun a b => a.1 ≠ b.1) := by
  induction dates generalizing acc with
  | nil => exact h
  | cons d ds ih =>
    simp only [List.foldl_cons]
    exact ih _ (keysNodup_fold_records _ acc h)

/-- C8: for a week with trading days, each returned participant average is
the sum of that participant's recorded volumes over the lookback window
divided by the number of lookback dates (at most 20), not by the number of
active days; a week with no trading days yields an empty result. -/
theorem c8_rolling_stats (env : Env) (week : WeekDefinition) (product cm : String)
    (mode : SessionMode) :
    (week.trading_days = [] → compute_20d_stats env week product cm mode = [])
    ∧ (lookbackDates env week).length ≤ 20
    ∧ (∀ pid a m, (pid, (a, m)) ∈ compute_20d_stats env week product cm mode →
        a = ((lookbackDates env week).map (fun td =>
              (((load_volume_for_market_date env td product cm mode).filter
                (fun r => r.participant_id = pid)).map (fun r => r.volume)).sum)).sum
            / ((lookbackDates env week).length : Rat)) := by
  refine ⟨?_, ?_, ?_⟩
  · intro h
    simp [compute_20d_stats, h]
  · unfold lookbackDates
    cases week.trading_days.getLast? with
    | none => simp
    | some week_end =>
      simp only [List.length_drop]
      omega
  · intro pid a m hm
    by_cases h1 : week.trading_days = []
    · rw [show compute_20d_stats env week product cm mode = [] by
        simp [compute_20d_stats, h1]] at hm
      simp at hm
    · by_cases h2 : lookbackDates env week = []
      · rw [show compute_20d_stats env week product cm mode = [] by
          simp [compute_20d_stats, h1, h2]] at hm
        simp at hm
      · rw [show compute_20d_stats env week product cm mode
            = ((lookbackDates env week).foldl (fun acc td =>
                (load_volume_for_market_date env td product cm mode).foldl
                  (fun acc2 r => dappend acc2 r.participant_id r.volume) acc) []).map
              (fun p => (p.1, (p.2.sum / (((lookbackDates env week).length : Nat) : Rat),
                maxOfList p.2))) by
          simp [compute_20d_stats, h1, h2]] at hm
        rw [List.mem_map] at hm
        obtain ⟨p, hp, heq⟩ := hm
        obtain ⟨ppid, pvs⟩ := p
        rw [Prod.mk.injEq] at heq
        obtain ⟨hpid, heq2⟩ := heq
        rw [Prod.mk.injEq] at heq2
        obtain ⟨ha, _⟩ := heq2
        subst hpid
        have hnd := keysNodup_fold_dates env product cm mode (lookbackDates env week) [] (by simp)
        have hget := dget_of_mem_keysNodup _ hnd ppid pvs hp
        have hdv : dvals ppid ((lookbackDates env week).foldl (fun acc td =>
            (load_volume_for_market_date env td product cm mode).foldl
              (fun acc2 r => dappend acc2 r.participant_id r.volume) acc) []) = pvs := by
          rw [dvals, hget]; rfl
        rw [dvals_fold_dates env product cm mode ppid (lookbackDates env week) []] at hdv
        simp only [dvals, dget, Option.getD_none, List.nil_append] at hdv
        rw [← ha, ← hdv]
        congr 1
        rw [List.sum_flatten]
        congr 1
        rw [List.map_map]
        rfl

/-- Volume record for the rolling-statistics window. -/
def pvRoll : ParticipantVolume := ⟨11, "NK225F", "2603", "11111", "ABC", "", 1, 10, 10, 0⟩

def envRoll : Env where
  tradingDates := [11, 12]
  volumeFile := fun d k => if d = 11 ∧ k = "WholeDay" then [pvRoll] else []
  oiFile := fun _ => []

def weekRoll : WeekDefinition := ⟨10, some 17, [11], "w"⟩

/-- The single (participant, (avg, max)) entry of the concrete window. -/
def statRoll : String × (Rat × Rat) :=
  (compute_20d_stats envRoll weekRoll "NK225F" "2603" SessionMode.all).headD ("", (0, 0))

theorem compute_20d_stats_envRoll_eval :
    compute_20d_stats envRoll weekRoll "NK225F" "2603" SessionMode.all = [statRoll] := rfl

/-- C8 applied to the concrete one-day lookback window. -/
theorem c8_rolling_stats_witness :
    statRoll.2.1 = ((lookbackDates envRoll weekRoll).map (fun td =>
        (((load_volume_for_market_date envRoll td "NK225F" "2603" SessionMode.all).filter
          (fun r => r.participant_id = statRoll.1)).map (fun r => r.volume)).sum)).sum
      / ((lookbackDates envRoll weekRoll).length : Rat) :=
  (c8_rolling_stats envRoll weekRoll "NK225F" "2603" SessionMode.all).2.2
    statRoll.1 statRoll.2.1 statRoll.2.2
    (by rw [compute_20d_stats_envRoll_eval]; exact List.mem_singleton_self _)

/-- models.OptionParticipantOI. -/
structure OptionParticipantOI where
  report_date : Nat
  contract_month : String
  option_type : String
  strike_price : Int
  participant_id : String
  participant_name_jp : String
  long_volume : Option Rat
  short_volume : Option Rat
deriving DecidableEq

/-- models.DailyOIBalance: aggregate per-strike daily OI (not per
participant). -/
structure DailyOIBalance where
  report_date : Nat
  contract_month : String
  option_type : String
  strike_price : Int
  trading_volume : Int
  current_oi : Int
  net_change : Int
  previous_oi : Int
deriving DecidableEq

/-- models.OptionStrikeRow. -/
structure OptionStrikeRow where
  strike_price : Int
  put_start_oi_long : Option Rat
  put_start_oi_short : Option Rat
  put_end_oi_long : Option Rat
  put_end_oi_short : Option Rat
  put_daily_volumes : List (Nat × Rat)
  put_week_total : Option Rat
  call_start_oi_long : Option Rat
  call_start_oi_short : Option Rat
  call_end_oi_long : Option Rat
  call_end_oi_short : Option Rat
  call_daily_volumes : List (Nat × Rat)
  call_week_total : Option Rat
  put_daily_breakdown : List (Nat × List (String × Rat))
  call_daily_breakdown : List (Nat × List (String × Rat))
  put_daily_oi : List (Nat × Int)
  put_daily_oi_change : List (Nat × Int)
  call_daily_oi : List (Nat × Int)
  call_daily_oi_change : List (Nat × Int)
  put_daily_jpx_volume : List (Nat × Int)
  call_daily_jpx_volume : List (Nat × Int)
deriving DecidableEq

/-- Option-side abstraction of the fetcher + parser collaborators. -/
structure OEnv where
  tradingDates : List Nat
  optionOiFile : Nat → List OptionParticipantOI
  optionVolumeFile : Nat → String → List OptionParticipantVolume
  dailyOiFile : Nat → List DailyOIBalance

def oNextTD (env : OEnv) (d : Nat) : Option Nat := nextTDnat env.tradingDates d

def oPrevTD (env : OEnv) (d : Nat) : Option Nat := prevTDgo none env.tradingDates d

/-- aggregator._load_option_oi_for_date: filtered records aggregated into
(option_type, strike) -> (total long, total short). -/
def load_option_oi_for_date (env : OEnv) (d : Nat) (contract_month : String)
    (participant_ids : Option (List String)) : List ((String × Int) × (Rat × Rat)) :=
  let records := env.optionOiFile d
  let f1 : List OptionParticipantOI := if contract_month ≠ "" then
      records.filter (fun r => r.contract_month = contract_month)
    else records
  let f2 : List OptionParticipantOI := match participant_ids with
    | some ps => f1.filter (fun r => r.participant_id ∈ ps)
    | none => f1
  f2.foldl (fun (agg : List ((String × Int) × (Rat × Rat))) (r : OptionParticipantOI) =>
    let key := (r.option_type, r.strike_price)
    let cur := (dget key agg).getD (0, 0)
    dinsert key (cur.1 + orZero r.long_volume, cur.2 + orZero r.short_volume) agg) []

/-- aggregator._load_option_volume_raw_session. -/
def load_option_volume_raw_session (env : OEnv) (d : Nat) (file_keys : List String) :
    List OptionParticipantVolume :=
  merge_option_volume_records (file_keys.map (fun k => env.optionVolumeFile d k))

def redateO (records : List OptionParticipantVolume) (new_date : Nat) :
    List OptionParticipantVolume :=
  records.map (fun r => { r with trade_date := new_date })

/-- aggregator._load_option_volume_for_market_date: same night-session
shift as the futures resolver. -/
def load_option_volume_for_market_date (env : OEnv) (market_date : Nat)
    (session_mode : SessionMode) : List OptionParticipantVolume :=
  match session_mode with
  | .all =>
    let day_records := load_option_volume_raw_session env market_date SESSION_DAY_KEYS
    let night_records := match oNextTD env market_date with
      | some next_td =>
          redateO (load_option_volume_raw_session env next_td SESSION_NIGHT_KEYS) market_date
      | none => []
    merge_option_volume_records [day_records, night_records]
  | .keys requested_keys =>
    if requested_keys.all (fun k => k ∈ SESSION_NIGHT_KEYS) then
      match oNextTD env market_date with
      | none => []
      | some next_td =>
          redateO (load_option_volume_raw_session env next_td requested_keys) market_date
    else
      load_option_volume_raw_session env market_date requested_keys

/-- aggregator._load_daily_oi_for_date. -/
def load_daily_oi_for_date (env : OEnv) (trade_date : Nat) (contract_month : String) :
    List DailyOIBalance :=
  let records := env.dailyOiFile trade_date
  if contract_month ≠ "" then records.filter (fun r => r.contract_month = contract_month)
  else records

/-- Step 2 of load_option_weekly_data: filtered daily volumes per day. -/
def optionDailyVols (env : OEnv) (week : WeekDefinition) (contract_month : String)
    (mode : SessionMode) (participant_ids : Option (List String)) :
    List (Nat × List OptionParticipantVolume) :=
  week.trading_days.foldl (fun acc td =>
    let records := load_option_volume_for_market_date env td mode
    let records := if contract_month ≠ "" then
        records.filter (fun r => r.contract_month = contract_month)
      else records
    let records := match participant_ids with
      | some ps => records.filter (fun r => r.participant_id ∈ ps)
      | none => records
    dinsert td records acc) []

/-- Step 2.5 of load_option_weekly_data: aggregate daily OI per day. -/
def optionDailyOI (env : OEnv) (week : WeekDefinition) (contract_month : String) :
    List (Nat × List DailyOIBalance) :=
  week.trading_days.foldl (fun acc td =>
    dinsert td (load_daily_oi_for_date env td contract_month) acc) []

/-- All strikes appearing in any input of _aggregate_by_strike. -/
def allStrikes (start_oi end_oi : List ((String × Int) × (Rat × Rat)))
    (daily_vols : List (Nat × List OptionParticipantVolume))
    (daily_oi : List (Nat × List DailyOIBalance)) : List Int :=
  (start_oi.map (fun p => p.1.2)) ++ (end_oi.map (fun p => p.1.2))
    ++ (daily_vols.map (fun p => p.2.map (fun r => r.strike_price))).flatten
    ++ (if daily_oi.isEmpty then []
        else (daily_oi.map (fun p => p.2.map (fun r => r.strike_price))).flatten)

/-- (date, option_type, strike) -> summed participant volume. -/
def optionVolAgg (daily_vols : List (Nat × List OptionParticipantVolume)) :
    List ((Nat × String × Int) × Rat) :=
  daily_vols.foldl (fun acc p =>
    p.2.foldl (fun (a : List ((Nat × String × Int) × Rat)) (r : OptionParticipantVolume) =>
      let key := (p.1, r.option_type, r.strike_price)
      dinsert key ((dget key a).getD 0 + r.volume) a) acc) []

/-- (date, option_type, strike) -> ranked (name, volume) pairs. -/
def optionVolDetail (daily_vols : List (Nat × List OptionParticipantVolume)) :
    List ((Nat × String × Int) × List (String × Rat)) :=
  let raw := daily_vols.foldl (fun acc p =>
    p.2.foldl (fun (a : List ((Nat × String × Int) × List (String × Rat)))
        (r : OptionParticipantVolume) =>
      let name := if r.participant_name_en ≠ "" then r.participant_name_en
        else if r.participant_name_jp ≠ "" then r.participant_name_jp
        else r.participant_id
      dappend a (p.1, r.option_type, r.strike_price) (name, r.volume)) acc) []
  raw.map (fun p => (p.1, sortOrd (fun a b => decide (a.2 > b.2)) p.2))

/-- The direct (pre-derivation) daily OI balance lookup. -/
def oiBalDirect (daily_oi : List (Nat × List DailyOIBalance)) :
    List ((Nat × String × Int) × DailyOIBalance) :=
  daily_oi.foldl (fun acc p =>
    p.2.foldl (fun a r => dinsert (p.1, r.option_type, r.strike_price) r a) acc) []

/-- The synthetic record back-filled for a missing prior trading day. -/
def syntheticBalance (ptd : Nat) (r : DailyOIBalance) : DailyOIBalance :=
  { report_date := ptd
    contract_month := r.contract_month
    option_type := r.option_type
    strike_price := r.strike_price
    trading_volume := 0
    current_oi := r.previous_oi
    net_change := 0
    previous_oi := 0 }

/-- One record of the derivation loop: insert the synthetic prior-day
balance only when the prior key is still absent (`prev_key not in
oi_bal_lookup`). -/
def oiBalInner (ptd : Nat) (a : List ((Nat × String × Int) × DailyOIBalance))
    (r : DailyOIBalance) : List ((Nat × String × Int) × DailyOIBalance) :=
  if (dget (ptd, r.option_type, r.strike_price) a).isSome then a
  else dinsert (ptd, r.option_type, r.strike_price) (syntheticBalance ptd r) a

/-- One day of the derivation loop: skipped when the previous trading
date is unknown or outside the week's trading-day list. -/
def oiBalPairStep (env : OEnv) (week : WeekDefinition)
    (acc : List ((Nat × String × Int) × DailyOIBalance))
    (p : Nat × List DailyOIBalance) : List ((Nat × String × Int) × DailyOIBalance) :=
  match oPrevTD env p.1 with
  | none => acc
  | some ptd =>
    if ptd ∈ week.trading_days then p.2.foldl (oiBalInner ptd) acc
    else acc

/-- The derivation pass of _aggregate_by_strike: back-fill a prior
trading day's balance from the next day's self-reported previous OI. -/
def oiBalDerive (env : OEnv) (week : WeekDefinition)
    (daily_oi : List (Nat × List DailyOIBalance))
    (direct : List ((Nat × String × Int) × DailyOIBalance)) :
    List ((Nat × String × Int) × DailyOIBalance) :=
  daily_oi.foldl (oiBalPairStep env week) direct

/-- The full daily OI balance lookup of _aggregate_by_strike (empty input
dict leaves the lookup empty, as in the Python truthiness guard). -/
def oiBalLookup (env : OEnv) (week : WeekDefinition)
    (daily_oi : List (Nat × List DailyOIBalance)) :
    List ((Nat × String × Int) × DailyOIBalance) :=
  if daily_oi.isEmpty then []
  else oiBalDerive env week daily_oi (oiBalDirect daily_oi)

/-- The OptionStrikeRow assembled for one strike. -/
def mkStrikeRow (week : WeekDefinition)
    (start_oi end_oi : List ((String × Int) × (Rat × Rat)))
    (vol_agg : List ((Nat × String × Int) × Rat))
    (vol_detail : List ((Nat × String × Int) × List (String × Rat)))
    (oi_bal : List ((Nat × String × Int) × DailyOIBalance))
    (strike : Int) : OptionStrikeRow :=
  let put_daily := week.trading_days.foldl (fun m td =>
    let pv := (dget (td, "PUT", strike) vol_agg).getD 0
    if pv > 0 then dinsert td pv m else m) []
  let put_total := week.trading_days.foldl (fun s td =>
    let pv := (dget (td, "PUT", strike) vol_agg).getD 0
    if pv > 0 then s + pv else s) 0
  let put_breakdown := week.trading_days.foldl (fun m td =>
    let pv := (dget (td, "PUT", strike) vol_agg).getD 0
    if pv > 0 then dinsert td ((dget (td, "PUT", strike) vol_detail).getD []) m else m) []
  let call_daily := week.trading_days.foldl (fun m td =>
    let cv := (dget (td, "CALL", strike) vol_agg).getD 0
    if cv > 0 then dinsert td cv m else m) []
  let call_total := week.trading_days.foldl (fun s td =>
    let cv := (dget (td, "CALL", strike) vol_agg).getD 0
    if cv > 0 then s + cv else s) 0
  let call_breakdown := week.trading_days.foldl (fun m td =>
    let cv := (dget (td, "CALL", strike) vol_agg).getD 0
    if cv > 0 then dinsert td ((dget (td, "CALL", strike) vol_detail).getD []) m else m) []
  let put_doi := week.trading_days.foldl (fun m td =>
    match dget (td, "PUT", strike) oi_bal with
    | some b => dinsert td b.current_oi m
    | none => m) []
  let put_doi_chg := week.trading_days.foldl (fun m td =>
    match dget (td, "PUT", strike) oi_bal with
    | some b => dinsert td b.net_change m
    | none => m) []
  let put_jpx := week.trading_days.foldl (fun m td =>
    match dget (td, "PUT", strike) oi_bal with
    | some b => if b.trading_volume > 0 then dinsert td b.trading_volume m else m
    | none => m) []
  let call_doi := week.trading_days.foldl (fun m td =>
    match dget (td, "CALL", strike) oi_bal with
    | some b => dinsert td b.current_oi m
    | none => m) []
  let call_doi_chg := week.trading_days.foldl (fun m td =>
    match dget (td, "CALL", strike) oi_bal with
    | some b => dinsert td b.net_change m
    | none => m) []
  let call_jpx := week.trading_days.foldl (fun m td =>
    match dget (td, "CALL", strike) oi_bal with
    | some b => if b.trading_volume > 0 then dinsert td b.trading_volume m else m
    | none => m) []
  let ps := dget ("PUT", strike) start_oi
  let pe := dget ("PUT", strike) end_oi
  let cs := dget ("CALL", strike) start_oi
  let ce := dget ("CALL", strike) end_oi
  { strike_price := strike
    put_start_oi_long := ps.map (fun p => p.1)
    put_start_oi_short := ps.map (fun p => p.2)
    put_end_oi_long := pe.map (fun p => p.1)
    put_end_oi_short := pe.map (fun p => p.2)
    put_daily_volumes := put_daily
    put_week_total := if put_total > 0 then some put_total else none
    call_start_oi_long := cs.map (fun p => p.1)
    call_start_oi_short := cs.map (fun p => p.2)
    call_end_oi_long := ce.map (fun p => p.1)
    call_end_oi_short := ce.map (fun p => p.2)
    call_daily_volumes := call_daily
    call_week_total := if call_total > 0 then some call_total else none
    put_daily_breakdown := put_breakdown
    call_daily_breakdown := call_breakdown
    put_daily_oi := put_doi
    put_daily_oi_change := put_doi_chg
    call_daily_oi := call_doi
    call_daily_oi_change := call_doi_chg
    put_daily_jpx_volume := put_jpx
    call_daily_jpx_volume := call_jpx }

/-- aggregator._aggregate_by_strike: one row per distinct strike, strikes
sorted descending. -/
def aggregate_by_strike (env : OEnv)
    (start_oi end_oi : List ((String × Int) × (Rat × Rat)))
    (daily_vols : List (Nat × List OptionParticipantVolume))
    (week : WeekDefinition)
    (daily_oi : List (Nat × List DailyOIBalance)) : List OptionStrikeRow :=
  (sortOrd (fun a b => decide (a > b))
      (allStrikes start_oi end_oi daily_vols daily_oi).dedup).map
    (mkStrikeRow week start_oi end_oi (optionVolAgg daily_vols)
      (optionVolDetail daily_vols) (oiBalLookup env week daily_oi))

/-- Step 1 of load_option_weekly_data: the start-OI aggregation. -/
def optionStartOI (env : OEnv) (week : WeekDefinition) (cm : String)
    (pids : Option (List String)) : List ((String × Int) × (Rat × Rat)) :=
  load_option_oi_for_date env week.start_oi_date cm pids

/-- Step 1 of load_option_weekly_data: the end-OI aggregation (empty for
the in-progress week). -/
def optionEndOI (env : OEnv) (week : WeekDefinition) (cm : String)
    (pids : Option (List String)) : List ((String × Int) × (Rat × Rat)) :=
  match week.end_oi_date with
  | some d => load_option_oi_for_date env d cm pids
  | none => []

/-- aggregator.load_option_weekly_data. -/
def load_option_weekly_data (env : OEnv) (week : WeekDefinition) (contract_month : String)
    (session_keys : SessionMode) (participant_ids : Option (List String)) :
    List OptionStrikeRow :=
  aggregate_by_strike env (optionStartOI env week contract_month participant_ids)
    (optionEndOI env week contract_month participant_ids)
    (optionDailyVols env week contract_month session_keys participant_ids) week
    (optionDailyOI env week contract_month)

theorem insertOrd_pairwise_ge (x : Int) (l : List Int)
    (h : l.Pairwise (fun a b : Int => a ≥ b)) :
    (insertOrd (fun a b => decide (a > b)) x l).Pairwise (fun a b : Int => a ≥ b) := by
  induction l with
  | nil => simp [insertOrd]
  | cons y ys ih =>
    rw [List.pairwise_cons] at h
    by_cases hxy : x > y
    · rw [show insertOrd (fun a b => decide (a > b)) x (y :: ys) = x :: y :: ys by
        simp [insertOrd, hxy]]
      rw [List.pairwise_cons]
      refine ⟨?_, List.pairwise_cons.mpr h⟩
      intro b hb
      rcases List.mem_cons.mp hb with h2 | h2
      · rw [h2]; exact le_of_lt hxy
      · exact le_trans (h.1 b h2) (le_of_lt hxy)
    · rw [show insertOrd (fun a b => decide (a > b)) x (y :: ys)
          = y :: insertOrd (fun a b => decide (a > b)) x ys by simp [insertOrd, hxy]]
      rw [List.pairwise_cons]
      refine ⟨?_, ih h.2⟩
      intro b hb
      rcases (insertOrd_perm (fun a b => decide (a > b)) x ys).mem_iff.mp hb with h2
      rcases List.mem_cons.mp h2 with h3 | h3
      · rw [h3]; exact le_of_not_lt hxy
      · exact h.1 b h3

theorem sortOrd_pairwise_ge (l : List Int) :
    (sortOrd (fun a b => decide (a > b)) l).Pairwise (fun a b : Int => a ≥ b) := by
  induction l with
  | nil => simp [sortOrd]
  | cons x xs ih => exact insertOrd_pairwise_ge x (sortOrd (fun a b => decide (a > b)) xs) ih

theorem pairwise_gt_of_ge_nodup (l : List Int)
    (hge : l.Pairwise (fun a b : Int => a ≥ b)) (hnd : l.Nodup) :
    l.Pairwise (fun a b : Int => a > b) :=
  (hge.and hnd).imp (fun h => lt_of_le_of_ne h.1 (Ne.symm h.2))

/-- C10: load_option_weekly_data returns exactly one row per distinct
strike appearing in any input (start OI, end OI, daily volumes, daily OI
balances), with rows sorted strictly descending by strike price. -/
theorem c10_one_row_per_strike_sorted_desc (env : OEnv) (week : WeekDefinition)
    (cm : String) (mode : SessionMode) (pids : Option (List String)) :
    ((load_option_weekly_data env week cm mode pids).map (fun r => r.strike_price)).Nodup
    ∧ (∀ s : Int,
        s ∈ (load_option_weekly_data env week cm mode pids).map (fun r => r.strike_price)
        ↔ s ∈ allStrikes (optionStartOI env week cm pids) (optionEndOI env week cm pids)
            (optionDailyVols env week cm mode pids) (optionDailyOI env week cm))
    ∧ ((load_option_weekly_data env week cm mode pids).map
        (fun r => r.strike_price)).Pairwise (fun a b : Int => a > b) := by
  have hmap : (load_option_weekly_data env week cm mode pids).map (fun r => r.strike_price)
      = sortOrd (fun a b => decide (a > b))
        (allStrikes (optionStartOI env week cm pids) (optionEndOI env week cm pids)
          (optionDailyVols env week cm mode pids) (optionDailyOI env week cm)).dedup := by
    unfold load_option_weekly_data aggregate_by_strike
    rw [List.map_map]
    have hcomp : ((fun (r : OptionStrikeRow) => r.strike_price)
        ∘ (mkStrikeRow week (optionStartOI env week cm pids) (optionEndOI env week cm pids)
          (optionVolAgg (optionDailyVols env week cm mode pids))
          (optionVolDetail (optionDailyVols env week cm mode pids))
          (oiBalLookup env week (optionDailyOI env week cm)))) = fun s => s :=
      funext (fun s => rfl)
    rw [hcomp]
    exact List.map_id' _
  rw [hmap]
  set strikes := (allStrikes (optionStartOI env week cm pids) (optionEndOI env week cm pids)
    (optionDailyVols env week cm mode pids) (optionDailyOI env week cm)).dedup with hstrikes
  have hperm := sortOrd_perm (fun a b => decide (a > b)) strikes
  have hnd : (sortOrd (fun a b => decide (a > b)) strikes).Nodup :=
    hperm.nodup_iff.mpr (List.nodup_dedup _)
  refine ⟨hnd, ?_, ?_⟩
  · intro s
    rw [hperm.mem_iff, hstrikes, List.mem_dedup]
  · exact pairwise_gt_of_ge_nodup _ (sortOrd_pairwise_ge strikes) hnd

theorem dget_dinsert {κ α : Type} [DecidableEq κ] (l : List (κ × α)) (k2 k : κ) (v : α) :
    dget k (dinsert k2 v l) = if k2 = k then some v else dget k l := by
  induction l with
  | nil => by_cases h : k2 = k <;> simp [dinsert, dget, h]
  | cons p rest ih =>
    obtain ⟨pk, pv⟩ := p
    by_cases hp2 : pk = k2
    · subst hp2
      by_cases hpk : pk = k
      · subst hpk; simp [dinsert, dget]
      · simp [dinsert, dget, hpk]
    · by_cases hpk : pk = k
      · subst hpk
        have hk2 : ¬ (k2 = pk) := fun h => hp2 h.symm
        simp [dinsert, hp2, dget, hk2]
      · simp [dinsert, hp2, dget, hpk, ih]

theorem dget_oiBalInner_mono (ptd : Nat) (a : List ((Nat × String × Int) × DailyOIBalance))
    (r : DailyOIBalance) (k : Nat × String × Int) (b : DailyOIBalance)
    (h : dget k a = some b) : dget k (oiBalInner ptd a r) = some b := by
  unfold oiBalInner
  by_cases hc : (dget (ptd, r.option_type, r.strike_price) a).isSome
  · rw [if_pos hc]; exact h
  · rw [if_neg hc, dget_dinsert]
    by_cases hk : (ptd, r.option_type, r.strike_price) = k
    · rw [hk, h] at hc; exact absurd rfl hc
    · rw [if_neg hk]; exact h

theorem dget_oiBalInner_fold_mono (ptd : Nat) (rs : List DailyOIBalance) :
    ∀ (a : List ((Nat × String × Int) × DailyOIBalance)) (k : Nat × String × Int)
      (b : DailyOIBalance), dget k a = some b →
      dget k (rs.foldl (oiBalInner ptd) a) = some b := by
  induction rs with
  | nil => intro a k b h; exact h
  | cons r rs ih =>
    intro a k b h
    simp only [List.foldl_cons]
    exact ih _ k b (dget_oiBalInner_mono ptd a r k b h)

theorem dget_oiBalPairStep_mono (env : OEnv) (week : WeekDefinition)
    (p : Nat × List DailyOIBalance) (a : List ((Nat × String × Int) × DailyOIBalance))
    (k : Nat × String × Int) (b : DailyOIBalance) (h : dget k a = some b) :
    dget k (oiBalPairStep env week a p) = some b := by
  unfold oiBalPairStep
  cases oPrevTD env p.1 with
  | none => exact h
  | some ptd =>
    by_cases hin : ptd ∈ week.trading_days
    · simp only [if_pos hin]
      exact dget_oiBalInner_fold_mono ptd p.2 a k b h
    · simp only [if_neg hin]
      exact h

theorem dget_oiBalDerive_fold_mono (env : OEnv) (week : WeekDefinition)
    (l : List (Nat × List DailyOIBalance)) :
    ∀ (a : List ((Nat × String × Int) × DailyOIBalance)) (k : Nat × String × Int)
      (b : DailyOIBalance), dget k a = some b →
      dget k (l.foldl (oiBalPairStep env week) a) = some b := by
  induction l with
  | nil => intro a k b h; exact h
  | cons p ps ih =>
    intro a k b h
    simp only [List.foldl_cons]
    exact ih _ k b (dget_oiBalPairStep_mono env week p a k b h)

/-- The provenance facts carried by every derived (non-direct) entry of
the daily OI balance lookup. -/
def c6Payload (env : OEnv) (week : WeekDefinition)
    (daily_oi : List (Nat × List DailyOIBalance)) (k : Nat × String × Int)
    (v : DailyOIBalance) : Prop :=
  k.1 ∈ week.trading_days
  ∧ ∃ td recs r, (td, recs) ∈ daily_oi ∧ oPrevTD env td = some k.1
      ∧ r ∈ recs ∧ r.option_type = k.2.1 ∧ r.strike_price = k.2.2
      ∧ v = syntheticBalance k.1 r

theorem oiBalInner_fold_spec (env : OEnv) (week : WeekDefinition)
    (daily_oi : List (Nat × List DailyOIBalance))
    (direct : List ((Nat × String × Int) × DailyOIBalance))
    (ptd : Nat) (hin : ptd ∈ week.trading_days) (td : Nat) (recs : List DailyOIBalance)
    (hmem : (td, recs) ∈ daily_oi) (hp : oPrevTD env td = some ptd) :
    ∀ (rs : List DailyOIBalance), (∀ r ∈ rs, r ∈ recs) →
    ∀ (a : List ((Nat × String × Int) × DailyOIBalance)),
      (∀ k v, dget k a = some v → dget k direct = some v ∨ c6Payload env week daily_oi k v) →
      ∀ k v, dget k (rs.foldl (oiBalInner ptd) a) = some v →
        dget k direct = some v ∨ c6Payload env week daily_oi k v := by
  intro rs
  induction rs with
  | nil => intro _ a hQ k v h; exact hQ k v h
  | cons r rs ih =>
    intro hsub a hQ k v h
    simp only [List.foldl_cons] at h
    refine ih (fun x hx => hsub x (List.mem_cons_of_mem r hx)) (oiBalInner ptd a r) ?_ k v h
    intro k2 v2 h2
    unfold oiBalInner at h2
    by_cases hc : (dget (ptd, r.option_type, r.strike_price) a).isSome
    · rw [if_pos hc] at h2; exact hQ k2 v2 h2
    · rw [if_neg hc, dget_dinsert] at h2
      by_cases hk : (ptd, r.option_type, r.strike_price) = k2
      · rw [if_pos hk] at h2
        right
        subst hk
        refine ⟨hin, td, recs, r, hmem, hp, hsub r (List.mem_cons_self r rs), rfl, rfl, ?_⟩
        exact (Option.some_inj.mp h2).symm
      · rw [if_neg hk] at h2
        exact hQ k2 v2 h2

theorem oiBalDerive_fold_spec (env : OEnv) (week : WeekDefinition)
    (daily_oi : List (Nat × List DailyOIBalance))
    (direct : List ((Nat × String × Int) × DailyOIBalance)) :
    ∀ (l : List (Nat × List DailyOIBalance)), (∀ p ∈ l, p ∈ daily_oi) →
    ∀ (a : List ((Nat × String × Int) × DailyOIBalance)),
      (∀ k v, dget k a = some v → dget k direct = some v ∨ c6Payload env week daily_oi k v) →
      ∀ k v, dget k (l.foldl (oiBalPairStep env week) a) = some v →
        dget k direct = some v ∨ c6Payload env week daily_oi k v := by
  intro l
  induction l with
  | nil => intro _ a hQ k v h; exact hQ k v h
  | cons p ps ih =>
    intro hsub a hQ k v h
    simp only [List.foldl_cons] at h
    refine ih (fun x hx => hsub x (List.mem_cons_of_mem p hx)) (oiBalPairStep env week a p)
      ?_ k v h
    intro k2 v2 h2
    unfold oiBalPairStep at h2
    cases hprev : oPrevTD env p.1 with
    | none => simp only [hprev] at h2; exact hQ k2 v2 h2
    | some ptd =>
      simp only [hprev] at h2
      by_cases hin : ptd ∈ week.trading_days
      · rw [if_pos hin] at h2
        exact oiBalInner_fold_spec env week daily_oi direct ptd hin p.1 p.2
          (hsub p (List.mem_cons_self p ps)) hprev p.2 (fun _ hx => hx) a hQ k2 v2 h2
      · rw [if_neg hin] at h2
        exact hQ k2 v2 h2

theorem oiBalInner_fold_inserts (ptd : Nat) (r : DailyOIBalance) :
    ∀ (rs : List DailyOIBalance) (a : List ((Nat × String × Int) × DailyOIBalance)),
      r ∈ rs →
      (dget (ptd, r.option_type, r.strike_price) (rs.foldl (oiBalInner ptd) a)).isSome := by
  intro rs
  induction rs with
  | nil => intro a h; simp at h
  | cons r2 rs ih =>
    intro a hmem
    simp only [List.foldl_cons]
    rcases List.mem_cons.mp hmem with h | h
    · subst h
      have h1 : (dget (ptd, r.option_type, r.strike_price) (oiBalInner ptd a r)).isSome := by
        unfold oiBalInner
        by_cases hc : (dget (ptd, r.option_type, r.strike_price) a).isSome
        · rw [if_pos hc]; exact hc
        · rw [if_neg hc, dget_dinsert, if_pos rfl]; rfl
      obtain ⟨b, hb⟩ := Option.isSome_iff_exists.mp h1
      rw [Option.isSome_iff_exists]
      exact ⟨b, dget_oiBalInner_fold_mono ptd rs _ _ b hb⟩
    · exact ih (oiBalInner ptd a r2) h

/-- C6: a missing (prior-date, type, strike) aggregate entry is
back-filled, only for prior dates inside the week's trading-day list, as a
synthetic record whose current OI is the next day's self-reported previous
OI with zero net change and zero volume; directly loaded entries are never
replaced by the derivation. -/
theorem c6_daily_oi_backfill (env : OEnv) (week : WeekDefinition)
    (daily_oi : List (Nat × List DailyOIBalance)) :
    (∀ k b, dget k (oiBalDirect daily_oi) = some b →
        dget k (oiBalLookup env week daily_oi) = some b)
    ∧ (∀ k v, dget k (oiBalLookup env week daily_oi) = some v →
        dget k (oiBalDirect daily_oi) = none →
        k.1 ∈ week.trading_days ∧ v.trading_volume = 0 ∧ v.net_change = 0
        ∧ ∃ td recs r, (td, recs) ∈ daily_oi ∧ oPrevTD env td = some k.1
            ∧ r ∈ recs ∧ r.option_type = k.2.1 ∧ r.strike_price = k.2.2
            ∧ v.current_oi = r.previous_oi)
    ∧ (∀ td recs r ptd, (td, recs) ∈ daily_oi → oPrevTD env td = some ptd →
        ptd ∈ week.trading_days → r ∈ recs →
        (dget (ptd, r.option_type, r.strike_price) (oiBalLookup env week daily_oi)).isSome) := by
  have hlkp : daily_oi ≠ [] → oiBalLookup env week daily_oi
      = oiBalDerive env week daily_oi (oiBalDirect daily_oi) := by
    intro hne
    cases daily_oi with
    | nil => exact absurd rfl hne
    | cons p ps => rfl
  refine ⟨?_, ?_, ?_⟩
  · intro k b h
    by_cases hd : daily_oi = []
    · subst hd
      simp [oiBalDirect, dget] at h
    · rw [hlkp hd]
      exact dget_oiBalDerive_fold_mono env week daily_oi (oiBalDirect daily_oi) k b h
  · intro k v h hnone
    by_cases hd : daily_oi = []
    · subst hd
      simp [oiBalLookup, dget] at h
    · rw [hlkp hd] at h
      rcases oiBalDerive_fold_spec env week daily_oi (oiBalDirect daily_oi) daily_oi
        (fun _ hx => hx) (oiBalDirect daily_oi) (fun _ _ hx => Or.inl hx) k v h with
        h2 | h2
      · rw [hnone] at h2; exact absurd h2 (by simp)
      · obtain ⟨hin, td, recs, r, hmem, hp, hr, hot, hs, hv⟩ := h2
        exact ⟨hin, by rw [hv]; rfl, by rw [hv]; rfl,
          td, recs, r, hmem, hp, hr, hot, hs, by rw [hv]; rfl⟩
  · intro td recs r ptd hmem hp hin hr
    have hd : daily_oi ≠ [] := by
      intro hnil
      rw [hnil] at hmem
      simp at hmem
    rw [hlkp hd]
    obtain ⟨l1, l2, hsplit⟩ := List.append_of_mem hmem
    unfold oiBalDerive
    set D := oiBalDirect daily_oi with hD
    rw [hsplit, List.foldl_append, List.foldl_cons]
    have hstep : (dget (ptd, r.option_type, r.strike_price)
        (oiBalPairStep env week (l1.foldl (oiBalPairStep env week) D)
          (td, recs))).isSome := by
      unfold oiBalPairStep
      simp only [hp, if_pos hin]
      exact oiBalInner_fold_inserts ptd r recs _ hr
    obtain ⟨b, hb⟩ := Option.isSome_iff_exists.mp hstep
    rw [Option.isSome_iff_exists]
    exact ⟨b, dget_oiBalDerive_fold_mono env week l2 _ _ b hb⟩

/-- Aggregate balance filed for date 2, self-reporting previous OI 55. -/
def balRec : DailyOIBalance := ⟨2, "2602", "PUT", 100, 10, 60, 5, 55⟩

def envOpt6 : OEnv := ⟨[1, 2], fun _ => [], fun _ _ => [], fun _ => []⟩

def weekOpt6 : WeekDefinition := ⟨0, some 9, [1, 2], "w"⟩

/-- Daily OI input with date 1 missing its (PUT, 100) entry and date 2
carrying one. -/
def dailyOiOpt6 : List (Nat × List DailyOIBalance) := [(1, []), (2, [balRec])]

/-- C6 applied concretely: the missing date-1 entry is back-filled from
the date-2 record. -/
theorem c6_daily_oi_backfill_witness :
    (dget (1, balRec.option_type, balRec.strike_price)
      (oiBalLookup envOpt6 weekOpt6 dailyOiOpt6)).isSome :=
  (c6_daily_oi_backfill envOpt6 weekOpt6 dailyOiOpt6).2.2 2 [balRec] balRec 1
    (by decide) (by decide) (by decide) (by decide)

/-
Heap model for the parse cache (claim C9): parsed records live in an
id-indexed store, the parse cache holds ids, and the night-shift re-dating
is an in-place mutation of the store at the ids it is handed — exactly the
aliasing structure of the Python code, where `_volume_parse_cache` holds
object references and `_redate_records` mutates objects in place.
-/

/-- The fetcher + parser collaborators, path-level: an index from (file
trade date, session key) to a file path, and the pure parse result per
path. -/
structure HeapEnv where
  tradingDates : List Nat
  pathIndex : Nat → String → Option String
  parseVolume : String → List ParticipantVolume

/-- Mutable process state: the object store (ids are list positions) and
the parse cache mapping each path to the ids of its parsed records. -/
structure HeapState where
  heap : List ParticipantVolume
  cache : List (String × List Nat)

def defaultPV : ParticipantVolume := ⟨0, "", "", "", "", "", 0, 0, 0, 0⟩

/-- Dereference an object id. -/
def readH (σ : HeapState) (i : Nat) : ParticipantVolume := σ.heap.getD i defaultPV

/-- Construct fresh objects for the given record values. -/
def allocRecs (σ : HeapState) (rs : List ParticipantVolume) : HeapState × List Nat :=
  ({ σ with heap := σ.heap ++ rs }, List.range' σ.heap.length rs.length)

/-- The parse-cache check of _load_raw_session: reuse the cached object
ids, or parse and cache fresh ones. -/
def lookupOrParse (henv : HeapEnv) (σ : HeapState) (path : String) : HeapState × List Nat :=
  match dget path σ.cache with
  | some ids => (σ, ids)
  | none =>
    let alloc := allocRecs σ (henv.parseVolume path)
    ({ alloc.1 with cache := alloc.1.cache ++ [(path, alloc.2)] }, alloc.2)

/-- One session key of _load_raw_session: fetch/parse the file (if
indexed) and keep the product-filtered ids (aliases of cached objects). -/
def rawSessionFold (henv : HeapEnv) (d : Nat) (product : String)
    (acc : HeapState × List (List Nat)) (k : String) : HeapState × List (List Nat) :=
  match henv.pathIndex d k with
  | none => acc
  | some path =>
    let lp := lookupOrParse henv acc.1 path
    (lp.1, acc.2 ++ [lp.2.filter (fun i => (readH lp.1 i).product = product)])

/-- _load_raw_session over the heap: the merger constructs fresh objects,
which are then filtered by contract month. -/
def load_raw_sessionH (henv : HeapEnv) (σ : HeapState) (d : Nat) (product cm : String)
    (keys : List String) : HeapState × List Nat :=
  let r1 := keys.foldl (rawSessionFold henv d product) (σ, [])
  let mergedVals := merge_volume_records (r1.2.map (fun ids => ids.map (readH r1.1)))
  let alloc := allocRecs r1.1 mergedVals
  (alloc.1, alloc.2.filter (fun i => (readH alloc.1 i).contract_month = cm))

/-- _redate_records: in-place mutation of the records it is handed. -/
def redateH (σ : HeapState) (ids : List Nat) (d : Nat) : HeapState :=
  ids.foldl (fun s i =>
    { s with heap := s.heap.set i { readH s i with trade_date := d } }) σ

/-- _load_volume_for_market_date over the heap. -/
def load_volume_for_market_dateH (henv : HeapEnv) (σ : HeapState) (market_date : Nat)
    (product cm : String) (mode : SessionMode) : HeapState × List Nat :=
  match mode with
  | .all =>
    let day := load_raw_sessionH henv σ market_date product cm SESSION_DAY_KEYS
    match nextTDnat henv.tradingDates market_date with
    | some next_td =>
      let night := load_raw_sessionH henv day.1 next_td product cm SESSION_NIGHT_KEYS
      let σ3 := redateH night.1 night.2 market_date
      let mergedVals := merge_volume_records
        [day.2.map (readH σ3), night.2.map (readH σ3)]
      let alloc := allocRecs σ3 mergedVals
      (alloc.1, alloc.2)
    | none =>
      let mergedVals := merge_volume_records [day.2.map (readH day.1), []]
      let alloc := allocRecs day.1 mergedVals
      (alloc.1, alloc.2)
  | .keys requested_keys =>
    if requested_keys.all (fun k => k ∈ SESSION_NIGHT_KEYS) then
      match nextTDnat henv.tradingDates market_date with
      | none => (σ, [])
      | some next_td =>
        let r := load_raw_sessionH henv σ next_td product cm requested_keys
        (redateH r.1 r.2 market_date, r.2)
    else
      load_raw_sessionH henv σ market_date product cm requested_keys

/-- The pure environment a heap environment denotes. -/
def envOfHeap (henv : HeapEnv) : Env where
  tradingDates := henv.tradingDates
  volumeFile := fun d k =>
    match henv.pathIndex d k with
    | some path => henv.parseVolume path
    | none => []
  oiFile := fun _ => []

/-- Cache well-formedness: every cached entry dereferences to exactly the
parse result of its path, through in-bounds ids. -/
def cacheOK (henv : HeapEnv) (σ : HeapState) : Prop :=
  ∀ p ids, (p, ids) ∈ σ.cache →
    ids.map (readH σ) = henv.parseVolume p ∧ ∀ i ∈ ids, i < σ.heap.length

/-- A sequence of session resolutions, threading the mutable state. -/
def runRequestsH (henv : HeapEnv) (σ : HeapState)
    (reqs : List (Nat × String × String × SessionMode)) : HeapState :=
  reqs.foldl (fun s q =>
    (load_volume_for_market_dateH henv s q.1 q.2.1 q.2.2.1 q.2.2.2).1) σ

theorem readH_allocRecs_old (σ : HeapState) (rs : List ParticipantVolume) (i : Nat)
    (h : i < σ.heap.length) : readH (allocRecs σ rs).1 i = readH σ i := by
  unfold readH allocRecs
  exact List.getD_append _ _ _ _ h

theorem range'_getD_append (pre rs : List ParticipantVolume) :
    (List.range' pre.length rs.length).map (fun i => (pre ++ rs).getD i defaultPV) = rs := by
  induction rs generalizing pre with
  | nil => simp
  | cons r rs ih =>
    rw [List.length_cons, List.range'_succ, List.map_cons]
    have hhead : (pre ++ r :: rs).getD pre.length defaultPV = r := by
      rw [List.getD_append_right _ _ _ _ (le_refl _)]
      simp
    have htail : (List.range' (pre.length + 1) rs.length).map
        (fun i => (pre ++ r :: rs).getD i defaultPV) = rs := by
      have hre : pre ++ r :: rs = (pre ++ [r]) ++ rs := by simp
      have hlen : pre.length + 1 = (pre ++ [r]).length := by simp
      rw [hre, hlen]
      exact ih (pre ++ [r])
    rw [hhead, htail]

theorem allocRecs_reads (σ : HeapState) (rs : List ParticipantVolume) :
    (allocRecs σ rs).2.map (readH (allocRecs σ rs).1) = rs := by
  unfold allocRecs readH
  exact range'_getD_append σ.heap rs

theorem allocRecs_length (σ : HeapState) (rs : List ParticipantVolume) :
    (allocRecs σ rs).1.heap.length = σ.heap.length + rs.length := by
  simp [allocRecs]

theorem mem_allocRecs_ids (σ : HeapState) (rs : List ParticipantVolume) (i : Nat)
    (h : i ∈ (allocRecs σ rs).2) : σ.heap.length ≤ i ∧ i < σ.heap.length + rs.length := by
  simpa [allocRecs] using List.mem_range'_1.mp h

theorem readH_set_ne (σ : HeapState) (j i : Nat) (v : ParticipantVolume) (h : j ≠ i) :
    readH { σ with heap := σ.heap.set j v } i = readH σ i := by
  unfold readH
  rw [List.getD_eq_getElem?_getD, List.getD_eq_getElem?_getD]
  simp only [List.getElem?_set_ne h]

theorem readH_set_eq (σ : HeapState) (j : Nat) (v : ParticipantVolume)
    (h : j < σ.heap.length) :
    readH { σ with heap := σ.heap.set j v } j = v := by
  unfold readH
  rw [List.getD_eq_getElem?_getD]
  simp only [List.getElem?_set_self h]
  rfl

theorem redateH_cache (d : Nat) : ∀ (ids : List Nat) (σ : HeapState),
    (redateH σ ids d).cache = σ.cache := by
  intro ids
  induction ids with
  | nil => intro σ; rfl
  | cons i is ih =>
    intro σ
    simp only [redateH, List.foldl_cons] at ih ⊢
    exact ih _

theorem redateH_length (d : Nat) : ∀ (ids : List Nat) (σ : HeapState),
    (redateH σ ids d).heap.length = σ.heap.length := by
  intro ids
  induction ids with
  | nil => intro σ; rfl
  | cons i is ih =>
    intro σ
    simp only [redateH, List.foldl_cons] at ih ⊢
    rw [ih]
    simp

theorem readH_redateH_not_mem (d : Nat) : ∀ (ids : List Nat) (σ : HeapState) (i : Nat),
    i ∉ ids → readH (redateH σ ids d) i = readH σ i := by
  intro ids
  induction ids with
  | nil => intro σ i _; rfl
  | cons j js ih =>
    intro σ i hmem
    have hji : j ≠ i := fun h => hmem (h ▸ List.mem_cons_self j js)
    have hjs : i ∉ js := fun h => hmem (List.mem_cons_of_mem j h)
    simp only [redateH, List.foldl_cons] at ih ⊢
    rw [ih _ i hjs, readH_set_ne σ j i _ hji]

theorem redateH_map_read (d : Nat) : ∀ (ids : List Nat) (σ : HeapState),
    ids.Nodup → (∀ i ∈ ids, i < σ.heap.length) →
    ids.map (readH (redateH σ ids d))
      = (ids.map (readH σ)).map (fun r => { r with trade_date := d }) := by
  intro ids
  induction ids with
  | nil => intro σ _ _; rfl
  | cons i is ih =>
    intro σ hnd hbd
    have hni : i ∉ is := (List.nodup_cons.mp hnd).1
    simp only [redateH, List.foldl_cons]
    rw [show ∀ s : HeapState, List.foldl (fun s i =>
        { s with heap := s.heap.set i { readH s i with trade_date := d } }) s is
        = redateH s is d from fun s => rfl]
    rw [List.map_cons, List.map_cons, List.map_cons]
    have hhead : readH (redateH { σ with
        heap := σ.heap.set i { readH σ i with trade_date := d } } is d) i
        = { readH σ i with trade_date := d } := by
      rw [readH_redateH_not_mem d is _ i hni]
      exact readH_set_eq σ i _ (hbd i (List.mem_cons_self i is))
    rw [hhead]
    have htail := ih { σ with heap := σ.heap.set i { readH σ i with trade_date := d } }
      (List.nodup_cons.mp hnd).2
      (by
        intro j hj
        rw [show ({ σ with heap := σ.heap.set i { readH σ i with trade_date := d } }
            : HeapState).heap.length = σ.heap.length by simp]
        exact hbd j (List.mem_cons_of_mem i hj))
    rw [htail]
    have hinner : is.map (readH { σ with
        heap := σ.heap.set i { readH σ i with trade_date := d } }) = is.map (readH σ) :=
      List.map_eq_map_iff.mpr (fun j hj => readH_set_ne σ i j _ (fun h => hni (h ▸ hj)))
    rw [hinner]

theorem dget_mem {κ α : Type} [DecidableEq κ] (l : List (κ × α)) (k : κ) (v : α)
    (h : dget k l = some v) : (k, v) ∈ l := by
  induction l with
  | nil => simp [dget] at h
  | cons p rest ih =>
    obtain ⟨pk, pv⟩ := p
    by_cases hpk : pk = k
    · subst hpk
      have hv : pv = v := by simpa [dget] using h
      subst hv
      exact List.mem_cons_self _ _
    · simp only [dget, if_neg hpk] at h
      exact List.mem_cons_of_mem _ (ih h)

theorem lookupOrParse_spec (henv : HeapEnv) (σ : HeapState) (path : String)
    (hok : cacheOK henv σ) :
    cacheOK henv (lookupOrParse henv σ path).1
    ∧ (∃ t, (lookupOrParse henv σ path).1.cache = σ.cache ++ t)
    ∧ σ.heap.length ≤ (lookupOrParse henv σ path).1.heap.length
    ∧ (∀ i, i < σ.heap.length → readH (lookupOrParse henv σ path).1 i = readH σ i)
    ∧ (∀ i ∈ (lookupOrParse henv σ path).2, i < (lookupOrParse henv σ path).1.heap.length)
    ∧ (lookupOrParse henv σ path).2.map (readH (lookupOrParse henv σ path).1)
        = henv.parseVolume path := by
  cases hc : dget path σ.cache with
  | some ids =>
    have hred : lookupOrParse henv σ path = (σ, ids) := by
      unfold lookupOrParse
      rw [hc]
    rw [hred]
    have hm := hok path ids (dget_mem _ _ _ hc)
    exact ⟨hok, ⟨[], by simp⟩, le_refl _, fun _ _ => rfl, hm.2, hm.1⟩
  | none =>
    have hred : lookupOrParse henv σ path
        = ({ (allocRecs σ (henv.parseVolume path)).1 with
              cache := σ.cache ++ [(path, (allocRecs σ (henv.parseVolume path)).2)] },
            (allocRecs σ (henv.parseVolume path)).2) := by
      unfold lookupOrParse
      rw [hc]
      rfl
    rw [hred]
    refine ⟨?_, ⟨[(path, (allocRecs σ (henv.parseVolume path)).2)], rfl⟩,
      ?_, ?_, ?_, ?_⟩
    · intro p ids hmem
      have hmem2 : (p, ids) ∈ σ.cache ++ [(path, (allocRecs σ (henv.parseVolume path)).2)] :=
        hmem
      rcases List.mem_append.mp hmem2 with hm | hm
      · have hold := hok p ids hm
        have hval : ids.map (readH (allocRecs σ (henv.parseVolume path)).1)
            = ids.map (readH σ) :=
          List.map_eq_map_iff.mpr (fun i hi => readH_allocRecs_old σ _ i (hold.2 i hi))
        refine ⟨hval.trans hold.1, ?_⟩
        intro i hi
        show i < (allocRecs σ (henv.parseVolume path)).1.heap.length
        rw [allocRecs_length]
        exact Nat.lt_of_lt_of_le (hold.2 i hi) (Nat.le_add_right _ _)
      · have heq := List.mem_singleton.mp hm
        rw [Prod.mk.injEq] at heq
        obtain ⟨hp, hids⟩ := heq
        rw [hp, hids]
        refine ⟨allocRecs_reads σ _, ?_⟩
        intro i hi
        show i < (allocRecs σ (henv.parseVolume path)).1.heap.length
        rw [allocRecs_length]
        exact (mem_allocRecs_ids σ _ i hi).2
    · show σ.heap.length ≤ (allocRecs σ (henv.parseVolume path)).1.heap.length
      rw [allocRecs_length]
      exact Nat.le_add_right _ _
    · intro i hi
      exact readH_allocRecs_old σ _ i hi
    · intro i hi
      show i < (allocRecs σ (henv.parseVolume path)).1.heap.length
      rw [allocRecs_length]
      exact (mem_allocRecs_ids σ _ i hi).2
    · exact allocRecs_reads σ _

/-- The per-key file contribution as the pure model sees it (absent when
the file index has no entry for the key). -/
def pureFileFiltered (henv : HeapEnv) (d : Nat) (product : String) (k : String) :
    Option (List ParticipantVolume) :=
  match henv.pathIndex d k with
  | some path => some ((henv.parseVolume path).filter (fun r => r.product = product))
  | none => none

theorem filter_read_map (σ : HeapState) (pred : ParticipantVolume → Bool) (ids : List Nat) :
    (ids.filter (fun i => pred (readH σ i))).map (readH σ)
      = (ids.map (readH σ)).filter pred := by
  induction ids with
  | nil => rfl
  | cons i is ih =>
    by_cases h : pred (readH σ i) <;> simp [List.filter_cons, h, ih]

theorem rawFold_spec (henv : HeapEnv) (d : Nat) (product : String) :
    ∀ (keys : List String) (σ : HeapState) (ls : List (List Nat)),
      cacheOK henv σ →
      (∀ l ∈ ls, ∀ i ∈ l, i < σ.heap.length) →
      cacheOK henv (keys.foldl (rawSessionFold henv d product) (σ, ls)).1
      ∧ (∃ t, (keys.foldl (rawSessionFold henv d product) (σ, ls)).1.cache = σ.cache ++ t)
      ∧ σ.heap.length ≤ (keys.foldl (rawSessionFold henv d product) (σ, ls)).1.heap.length
      ∧ (∀ i, i < σ.heap.length →
          readH (keys.foldl (rawSessionFold henv d product) (σ, ls)).1 i = readH σ i)
      ∧ (∀ l ∈ (keys.foldl (rawSessionFold henv d product) (σ, ls)).2, ∀ i ∈ l,
          i < (keys.foldl (rawSessionFold henv d product) (σ, ls)).1.heap.length)
      ∧ (keys.foldl (rawSessionFold henv d product) (σ, ls)).2.map
          (fun ids => ids.map (readH (keys.foldl (rawSessionFold henv d product) (σ, ls)).1))
        = ls.map (fun ids => ids.map (readH σ))
          ++ keys.filterMap (pureFileFiltered henv d product) := by
  intro keys
  induction keys with
  | nil =>
    intro σ ls hok hbd
    exact ⟨hok, ⟨[], by simp⟩, le_refl _, fun _ _ => rfl, hbd, by simp⟩
  | cons k ks ih =>
    intro σ ls hok hbd
    rw [List.foldl_cons]
    cases hpi : henv.pathIndex d k with
    | none =>
      have hstep : rawSessionFold henv d product (σ, ls) k = (σ, ls) := by
        unfold rawSessionFold
        rw [hpi]
      rw [hstep]
      have hrest := ih σ ls hok hbd
      refine ⟨hrest.1, hrest.2.1, hrest.2.2.1, hrest.2.2.2.1, hrest.2.2.2.2.1, ?_⟩
      rw [hrest.2.2.2.2.2]
      have hpf : pureFileFiltered henv d product k = none := by
        unfold pureFileFiltered
        rw [hpi]
      rw [List.filterMap_cons, hpf]
    | some path =>
      obtain ⟨hok1, ⟨t0, hcache0⟩, hlen0, hread0, hbound0, hval0⟩ :=
        lookupOrParse_spec henv σ path hok
      have hstep : rawSessionFold henv d product (σ, ls) k
          = ((lookupOrParse henv σ path).1,
            ls ++ [(lookupOrParse henv σ path).2.filter
              (fun i => (readH (lookupOrParse henv σ path).1 i).product = product)]) := by
        unfold rawSessionFold
        rw [hpi]
      rw [hstep]
      have hbd1 : ∀ l ∈ ls ++ [(lookupOrParse henv σ path).2.filter
          (fun i => (readH (lookupOrParse henv σ path).1 i).product = product)], ∀ i ∈ l,
          i < (lookupOrParse henv σ path).1.heap.length := by
        intro l hl i hi
        rcases List.mem_append.mp hl with hl | hl
        · exact Nat.lt_of_lt_of_le (hbd l hl i hi) hlen0
        · rw [List.mem_singleton] at hl
          subst hl
          exact hbound0 i (List.mem_of_mem_filter hi)
      obtain ⟨hokF, ⟨t1, hcacheF⟩, hlenF, hreadF, hboundF, hvalF⟩ :=
        ih (lookupOrParse henv σ path).1 _ hok1 hbd1
      refine ⟨hokF, ⟨t0 ++ t1, by rw [hcacheF, hcache0, List.append_assoc]⟩,
        le_trans hlen0 hlenF, ?_, hboundF, ?_⟩
      · intro i hi
        rw [hreadF i (Nat.lt_of_lt_of_le hi hlen0), hread0 i hi]
      · rw [hvalF, List.map_append]
        have hls : ls.map (fun ids => ids.map (readH (lookupOrParse henv σ path).1))
            = ls.map (fun ids => ids.map (readH σ)) := by
          refine List.map_eq_map_iff.mpr ?_
          intro l hl
          exact List.map_eq_map_iff.mpr (fun i hi => hread0 i (hbd l hl i hi))
        have hnew : ([(lookupOrParse henv σ path).2.filter
            (fun i => (readH (lookupOrParse henv σ path).1 i).product = product)]).map
            (fun ids => ids.map (readH (lookupOrParse henv σ path).1))
            = [(henv.parseVolume path).filter (fun r => r.product = product)] := by
          rw [List.map_singleton,
            filter_read_map (lookupOrParse henv σ path).1
              (fun r => decide (r.product = product)) (lookupOrParse henv σ path).2,
            hval0]
        rw [hls, hnew]
        have hpf : pureFileFiltered henv d product k
            = some ((henv.parseVolume path).filter (fun r => r.product = product)) := by
          unfold pureFileFiltered
          rw [hpi]
        rw [List.filterMap_cons, hpf]
        simp [List.append_assoc]

theorem merge_eq_of_flatten_eq (l1 l2 : List (List ParticipantVolume))
    (h : l1.flatten = l2.flatten) : merge_volume_records l1 = merge_volume_records l2 := by
  unfold merge_volume_records
  rw [h]

theorem flatten_filterMap_getD (keys : List String)
    (f : String → Option (List ParticipantVolume)) :
    (keys.filterMap f).flatten = (keys.map (fun k => (f k).getD [])).flatten := by
  induction keys with
  | nil => rfl
  | cons k ks ih => cases hf : f k <;> simp [List.filterMap_cons, hf, ih]

theorem envOfHeap_volumeFile (henv : HeapEnv) (d : Nat) (k : String) :
    (envOfHeap henv).volumeFile d k
      = match henv.pathIndex d k with
        | some path => henv.parseVolume path
        | none => [] := rfl

theorem pureFileFiltered_getD (henv : HeapEnv) (d : Nat) (product k : String) :
    (pureFileFiltered henv d product k).getD []
      = ((envOfHeap henv).volumeFile d k).filter (fun r => r.product = product) := by
  rw [envOfHeap_volumeFile]
  unfold pureFileFiltered
  cases henv.pathIndex d k <;> rfl

theorem cacheOK_allocRecs (henv : HeapEnv) (σ : HeapState) (rs : List ParticipantVolume)
    (hok : cacheOK henv σ) : cacheOK henv (allocRecs σ rs).1 := by
  intro p ids hmem
  have hold := hok p ids hmem
  refine ⟨?_, ?_⟩
  · rw [List.map_eq_map_iff.mpr (fun i hi => readH_allocRecs_old σ rs i (hold.2 i hi))]
    exact hold.1
  · intro i hi
    rw [allocRecs_length]
    exact Nat.lt_of_lt_of_le (hold.2 i hi) (Nat.le_add_right _ _)

theorem load_raw_sessionH_spec (henv : HeapEnv) (σ : HeapState) (d : Nat)
    (product cm : String) (keys : List String) (hok : cacheOK henv σ) :
    cacheOK henv (load_raw_sessionH henv σ d product cm keys).1
    ∧ (∃ t, (load_raw_sessionH henv σ d product cm keys).1.cache = σ.cache ++ t)
    ∧ σ.heap.length ≤ (load_raw_sessionH henv σ d product cm keys).1.heap.length
    ∧ (∀ i, i < σ.heap.length →
        readH (load_raw_sessionH henv σ d product cm keys).1 i = readH σ i)
    ∧ (∃ base, σ.heap.length ≤ base
        ∧ (∀ p ids, (p, ids) ∈ (load_raw_sessionH henv σ d product cm keys).1.cache →
            ∀ j ∈ ids, j < base)
        ∧ (∀ i ∈ (load_raw_sessionH henv σ d product cm keys).2,
            base ≤ i ∧ i < (load_raw_sessionH henv σ d product cm keys).1.heap.length))
    ∧ (load_raw_sessionH henv σ d product cm keys).2.Nodup
    ∧ (load_raw_sessionH henv σ d product cm keys).2.map
        (readH (load_raw_sessionH henv σ d product cm keys).1)
      = load_raw_session (envOfHeap henv) d product cm keys := by
  obtain ⟨hokF, ⟨t0, hcF⟩, hlenF, hreadF, hboundF, hvalF⟩ :=
    rawFold_spec henv d product keys σ [] hok (by simp)
  set F := keys.foldl (rawSessionFold henv d product) (σ, ([] : List (List Nat))) with hF
  set M := merge_volume_records (F.2.map (fun ids => ids.map (readH F.1))) with hM
  have hred : load_raw_sessionH henv σ d product cm keys
      = ((allocRecs F.1 M).1,
        (allocRecs F.1 M).2.filter
          (fun i => (readH (allocRecs F.1 M).1 i).contract_month = cm)) := rfl
  rw [hred]
  have hMpure : M = merge_volume_records (keys.map (fun k =>
      ((envOfHeap henv).volumeFile d k).filter (fun r => r.product = product))) := by
    rw [hM]
    have h1 : F.2.map (fun ids => ids.map (readH F.1))
        = keys.filterMap (pureFileFiltered henv d product) := by
      rw [hvalF]
      simp
    rw [h1]
    refine merge_eq_of_flatten_eq _ _ ?_
    rw [flatten_filterMap_getD]
    congr 1
    exact List.map_eq_map_iff.mpr (fun k _ => pureFileFiltered_getD henv d product k)
  refine ⟨?_, ⟨t0, hcF⟩, ?_, ?_, ?_, ?_, ?_⟩
  · exact cacheOK_allocRecs henv F.1 M hokF
  · show σ.heap.length ≤ (allocRecs F.1 M).1.heap.length
    rw [allocRecs_length]
    exact le_trans hlenF (Nat.le_add_right _ _)
  · intro i hi
    show readH (allocRecs F.1 M).1 i = readH σ i
    rw [readH_allocRecs_old F.1 M i (Nat.lt_of_lt_of_le hi hlenF)]
    exact hreadF i hi
  · refine ⟨F.1.heap.length, hlenF, ?_, ?_⟩
    · intro p ids hmem j hj
      exact (hokF p ids hmem).2 j hj
    · intro i hi
      have hi2 := List.mem_of_mem_filter hi
      have hb := mem_allocRecs_ids F.1 M i hi2
      refine ⟨hb.1, ?_⟩
      show i < (allocRecs F.1 M).1.heap.length
      rw [allocRecs_length]
      exact hb.2
  · refine List.Nodup.filter _ ?_
    show (List.range' F.1.heap.length M.length).Nodup
    simp [List.nodup_range']
  · rw [filter_read_map (allocRecs F.1 M).1
      (fun r => decide (r.contract_month = cm)) (allocRecs F.1 M).2]
    rw [allocRecs_reads F.1 M, hMpure]
    rfl

theorem load_volume_pure_all_some (env : Env) (d : Nat) (product cm : String) (d2 : Nat)
    (h : nextTD env d = some d2) :
    load_volume_for_market_date env d product cm SessionMode.all
      = merge_volume_records [load_raw_session env d product cm SESSION_DAY_KEYS,
          redate (load_raw_session env d2 product cm SESSION_NIGHT_KEYS) d] := by
  unfold load_volume_for_market_date
  rw [h]

theorem load_volume_pure_all_none (env : Env) (d : Nat) (product cm : String)
    (h : nextTD env d = none) :
    load_volume_for_market_date env d product cm SessionMode.all
      = merge_volume_records [load_raw_session env d product cm SESSION_DAY_KEYS, []] := by
  unfold load_volume_for_market_date
  rw [h]

theorem load_volume_pure_keys_night_some (env : Env) (d : Nat) (product cm : String)
    (ks : List String) (d2 : Nat)
    (hn : ks.all (fun k => decide (k ∈ SESSION_NIGHT_KEYS)) = true)
    (h : nextTD env d = some d2) :
    load_volume_for_market_date env d product cm (SessionMode.keys ks)
      = redate (load_raw_session env d2 product cm ks) d := by
  unfold load_volume_for_market_date
  simp only [hn, if_true]
  rw [h]

theorem load_volume_pure_keys_night_none (env : Env) (d : Nat) (product cm : String)
    (ks : List String)
    (hn : ks.all (fun k => decide (k ∈ SESSION_NIGHT_KEYS)) = true)
    (h : nextTD env d = none) :
    load_volume_for_market_date env d product cm (SessionMode.keys ks) = [] := by
  unfold load_volume_for_market_date
  simp only [hn, if_true]
  rw [h]

theorem load_volume_pure_keys_day (env : Env) (d : Nat) (product cm : String)
    (ks : List String)
    (hn : ¬ (ks.all (fun k => decide (k ∈ SESSION_NIGHT_KEYS)) = true)) :
    load_volume_for_market_date env d product cm (SessionMode.keys ks)
      = load_raw_session env d product cm ks := by
  have hred : load_volume_for_market_date env d product cm (SessionMode.keys ks)
      = if (ks.all fun k => decide (k ∈ SESSION_NIGHT_KEYS)) = true then
          (match nextTD env d with
            | none => []
            | some next_td => redate (load_raw_session env next_td product cm ks) d)
        else load_raw_session env d product cm ks := rfl
  rw [hred, if_neg hn]

theorem load_volume_for_market_dateH_spec (henv : HeapEnv) (σ : HeapState) (d : Nat)
    (product cm : String) (mode : SessionMode) (hok : cacheOK henv σ) :
    cacheOK henv (load_volume_for_market_dateH henv σ d product cm mode).1
    ∧ (∃ t, (load_volume_for_market_dateH henv σ d product cm mode).1.cache = σ.cache ++ t)
    ∧ σ.heap.length ≤ (load_volume_for_market_dateH henv σ d product cm mode).1.heap.length
    ∧ (∀ i, i < σ.heap.length →
        readH (load_volume_for_market_dateH henv σ d product cm mode).1 i = readH σ i)
    ∧ (load_volume_for_market_dateH henv σ d product cm mode).2.map
        (readH (load_volume_for_market_dateH henv σ d product cm mode).1)
      = load_volume_for_market_date (envOfHeap henv) d product cm mode := by
  cases mode with
  | all =>
    obtain ⟨dok, ⟨t0, dc⟩, dlen, dread, ⟨b1, hb1σ, hb1c, hb1o⟩, dnd, dval⟩ :=
      load_raw_sessionH_spec henv σ d product cm SESSION_DAY_KEYS hok
    cases hnext : nextTDnat henv.tradingDates d with
    | some d2 =>
      obtain ⟨nok, ⟨t1, nc⟩, nlen, nread, ⟨b2, hb2σ, hb2c, hb2o⟩, nnd, nval⟩ :=
        load_raw_sessionH_spec henv (load_raw_sessionH henv σ d product cm SESSION_DAY_KEYS).1
          d2 product cm SESSION_NIGHT_KEYS dok
      set day := load_raw_sessionH henv σ d product cm SESSION_DAY_KEYS with hday
      set night := load_raw_sessionH henv day.1 d2 product cm SESSION_NIGHT_KEYS with hnight
      set σ3 := redateH night.1 night.2 d with hσ3
      set M := merge_volume_records [day.2.map (readH σ3), night.2.map (readH σ3)] with hMdef
      have hred : load_volume_for_market_dateH henv σ d product cm SessionMode.all
          = ((allocRecs σ3 M).1, (allocRecs σ3 M).2) := by
        rw [hMdef, hσ3, hnight, hday]
        unfold load_volume_for_market_dateH
        rw [hnext]
      rw [hred]
      have hnotmem : ∀ i, i < b2 → i ∉ night.2 := by
        intro i hi hmem
        exact absurd (hb2o i hmem).1 (by omega)
      have hσ3read : ∀ i, i < b2 → readH σ3 i = readH night.1 i := by
        intro i hi
        rw [hσ3]
        exact readH_redateH_not_mem d night.2 night.1 i (hnotmem i hi)
      have hσ3cache : σ3.cache = night.1.cache := redateH_cache d night.2 night.1
      have hσ3len : σ3.heap.length = night.1.heap.length := redateH_length d night.2 night.1
      have hdayb2 : day.1.heap.length ≤ b2 := hb2σ
      have hdayvals : day.2.map (readH σ3)
          = load_raw_session (envOfHeap henv) d product cm SESSION_DAY_KEYS := by
        rw [← dval]
        refine List.map_eq_map_iff.mpr ?_
        intro i hi
        have hiday : i < day.1.heap.length := (hb1o i hi).2
        rw [hσ3read i (Nat.lt_of_lt_of_le hiday hdayb2), nread i hiday]
      have hnightvals : night.2.map (readH σ3)
          = redate (load_raw_session (envOfHeap henv) d2 product cm SESSION_NIGHT_KEYS) d := by
        rw [hσ3, redateH_map_read d night.2 night.1 nnd (fun i hi => (hb2o i hi).2), nval]
        rfl
      have hok3 : cacheOK henv σ3 := by
        intro p ids hmem
        rw [hσ3cache] at hmem
        have hold := nok p ids hmem
        constructor
        · rw [← hold.1]
          refine List.map_eq_map_iff.mpr ?_
          intro i hi
          exact hσ3read i (hb2c p ids hmem i hi)
        · intro i hi
          rw [hσ3len]
          exact hold.2 i hi
      have hMeq : M = merge_volume_records
          [load_raw_session (envOfHeap henv) d product cm SESSION_DAY_KEYS,
            redate (load_raw_session (envOfHeap henv) d2 product cm SESSION_NIGHT_KEYS) d] := by
        rw [hMdef, hdayvals, hnightvals]
      refine ⟨cacheOK_allocRecs henv σ3 M hok3, ⟨t0 ++ t1, ?_⟩, ?_, ?_, ?_⟩
      · show σ3.cache = σ.cache ++ (t0 ++ t1)
        rw [hσ3cache, nc, dc, List.append_assoc]
      · show σ.heap.length ≤ (allocRecs σ3 M).1.heap.length
        rw [allocRecs_length, hσ3len]
        exact le_trans (le_trans dlen nlen) (Nat.le_add_right _ _)
      · intro i hi
        have hiday : i < day.1.heap.length := Nat.lt_of_lt_of_le hi dlen
        have hi3 : i < σ3.heap.length := by
          rw [hσ3len]
          exact Nat.lt_of_lt_of_le hiday nlen
        rw [readH_allocRecs_old σ3 M i hi3,
          hσ3read i (Nat.lt_of_lt_of_le hiday hdayb2), nread i hiday, dread i hi]
      · rw [allocRecs_reads σ3 M, hMeq,
          load_volume_pure_all_some (envOfHeap henv) d product cm d2 hnext]
    | none =>
      set day := load_raw_sessionH henv σ d product cm SESSION_DAY_KEYS with hday
      set M := merge_volume_records [day.2.map (readH day.1), []] with hMdef
      have hred : load_volume_for_market_dateH henv σ d product cm SessionMode.all
          = ((allocRecs day.1 M).1, (allocRecs day.1 M).2) := by
        rw [hMdef, hday]
        unfold load_volume_for_market_dateH
        rw [hnext]
      rw [hred]
      refine ⟨cacheOK_allocRecs henv day.1 M dok, ⟨t0, ?_⟩, ?_, ?_, ?_⟩
      · show day.1.cache = σ.cache ++ t0
        exact dc
      · show σ.heap.length ≤ (allocRecs day.1 M).1.heap.length
        rw [allocRecs_length]
        exact le_trans dlen (Nat.le_add_right _ _)
      · intro i hi
        rw [readH_allocRecs_old day.1 M i (Nat.lt_of_lt_of_le hi dlen), dread i hi]
      · rw [allocRecs_reads day.1 M, hMdef, dval,
          load_volume_pure_all_none (envOfHeap henv) d product cm hnext]
  | keys ks =>
    by_cases hn : ks.all (fun k => decide (k ∈ SESSION_NIGHT_KEYS)) = true
    · have hexp : load_volume_for_market_dateH henv σ d product cm (SessionMode.keys ks)
          = if (ks.all fun k => decide (k ∈ SESSION_NIGHT_KEYS)) = true then
              (match nextTDnat henv.tradingDates d with
                | none => (σ, ([] : List Nat))
                | some next_td =>
                  ((redateH (load_raw_sessionH henv σ next_td product cm ks).1
                      (load_raw_sessionH henv σ next_td product cm ks).2 d),
                    (load_raw_sessionH henv σ next_td product cm ks).2))
            else load_raw_sessionH henv σ d product cm ks := rfl
      cases hnext : nextTDnat henv.tradingDates d with
      | none =>
        have hred : load_volume_for_market_dateH henv σ d product cm (SessionMode.keys ks)
            = (σ, []) := by
          rw [hexp, if_pos hn, hnext]
        rw [hred]
        refine ⟨hok, ⟨[], by simp⟩, le_refl _, fun _ _ => rfl, ?_⟩
        rw [load_volume_pure_keys_night_none (envOfHeap henv) d product cm ks hn hnext]
        rfl
      | some d2 =>
        obtain ⟨rok, ⟨t0, rc⟩, rlen, rread, ⟨b1, hb1σ, hb1c, hb1o⟩, rnd, rval⟩ :=
          load_raw_sessionH_spec henv σ d2 product cm ks hok
        set r := load_raw_sessionH henv σ d2 product cm ks with hr
        have hred : load_volume_for_market_dateH henv σ d product cm (SessionMode.keys ks)
            = (redateH r.1 r.2 d, r.2) := by
          rw [hr, hexp, if_pos hn, hnext]
        rw [hred]
        have hnotmem : ∀ i, i < b1 → i ∉ r.2 := by
          intro i hi hmem
          exact absurd (hb1o i hmem).1 (by omega)
        have hread3 : ∀ i, i < b1 → readH (redateH r.1 r.2 d) i = readH r.1 i := by
          intro i hi
          exact readH_redateH_not_mem d r.2 r.1 i (hnotmem i hi)
        refine ⟨?_, ⟨t0, ?_⟩, ?_, ?_, ?_⟩
        · intro p ids hmem
          rw [redateH_cache] at hmem
          have hold := rok p ids hmem
          constructor
          · rw [← hold.1]
            refine List.map_eq_map_iff.mpr ?_
            intro i hi
            exact hread3 i (hb1c p ids hmem i hi)
          · intro i hi
            rw [redateH_length]
            exact hold.2 i hi
        · rw [redateH_cache]
          exact rc
        · rw [redateH_length]
          exact rlen
        · intro i hi
          rw [hread3 i (Nat.lt_of_lt_of_le hi hb1σ), rread i hi]
        · rw [redateH_map_read d r.2 r.1 rnd (fun i hi => (hb1o i hi).2), rval,
            load_volume_pure_keys_night_some (envOfHeap henv) d product cm ks d2 hn hnext]
          rfl
    · have hred : load_volume_for_market_dateH henv σ d product cm (SessionMode.keys ks)
          = load_raw_sessionH henv σ d product cm ks := by
        have hexp : load_volume_for_market_dateH henv σ d product cm (SessionMode.keys ks)
            = if (ks.all fun k => decide (k ∈ SESSION_NIGHT_KEYS)) = true then
                (match nextTDnat henv.tradingDates d with
                  | none => (σ, ([] : List Nat))
                  | some next_td =>
                    ((redateH (load_raw_sessionH henv σ next_td product cm ks).1
                        (load_raw_sessionH henv σ next_td product cm ks).2 d),
                      (load_raw_sessionH henv σ next_td product cm ks).2))
              else load_raw_sessionH henv σ d product cm ks := rfl
        rw [hexp, if_neg hn]
      rw [hred]
      obtain ⟨rok, ⟨t0, rc⟩, rlen, rread, _, _, rval⟩ :=
        load_raw_sessionH_spec henv σ d product cm ks hok
      exact ⟨rok, ⟨t0, rc⟩, rlen, rread,
        by rw [rval, load_volume_pure_keys_day (envOfHeap henv) d product cm ks hn]⟩

theorem runRequestsH_cache_stable (henv : HeapEnv) :
    ∀ (reqs : List (Nat × String × String × SessionMode)) (σ : HeapState),
      cacheOK henv σ →
      cacheOK henv (runRequestsH henv σ reqs)
      ∧ ∀ p ids, (p, ids) ∈ σ.cache → (p, ids) ∈ (runRequestsH henv σ reqs).cache := by
  intro reqs
  induction reqs with
  | nil => intro σ hok; exact ⟨hok, fun _ _ h => h⟩
  | cons q qs ih =>
    intro σ hok
    obtain ⟨hok1, ⟨t, hc⟩, _, _, _⟩ :=
      load_volume_for_market_dateH_spec henv σ q.1 q.2.1 q.2.2.1 q.2.2.2 hok
    have hrest := ih (load_volume_for_market_dateH henv σ q.1 q.2.1 q.2.2.1 q.2.2.2).1 hok1
    have hstep : runRequestsH henv σ (q :: qs)
        = runRequestsH henv
            (load_volume_for_market_dateH henv σ q.1 q.2.1 q.2.2.1 q.2.2.2).1 qs := by
      simp only [runRequestsH, List.foldl_cons]
    rw [hstep]
    refine ⟨hrest.1, ?_⟩
    intro p ids hmem
    refine hrest.2 p ids ?_
    rw [hc]
    exact List.mem_append_left _ hmem

/-- C9: the night-shift re-dating mutates only per-call fresh objects —
the parse cache's entries survive every resolution with unchanged field
values (they always dereference to the pure parse result), resolution
output always equals the pure (side-effect-free) resolution, and
resolving the same request twice yields records with identical values. -/
theorem c9_redating_touches_only_per_call_copies (henv : HeapEnv) (σ : HeapState)
    (d : Nat) (product cm : String) (mode : SessionMode) (hok : cacheOK henv σ) :
    cacheOK henv (load_volume_for_market_dateH henv σ d product cm mode).1
    ∧ (∀ pr ∈ σ.cache, pr ∈ (load_volume_for_market_dateH henv σ d product cm mode).1.cache)
    ∧ (load_volume_for_market_dateH henv σ d product cm mode).2.map
        (readH (load_volume_for_market_dateH henv σ d product cm mode).1)
      = load_volume_for_market_date (envOfHeap henv) d product cm mode
    ∧ (∀ reqs : List (Nat × String × String × SessionMode), ∀ p ids, (p, ids) ∈ σ.cache →
        (p, ids) ∈ (runRequestsH henv σ reqs).cache
        ∧ ids.map (readH (runRequestsH henv σ reqs)) = ids.map (readH σ))
    ∧ (load_volume_for_market_dateH henv
          (load_volume_for_market_dateH henv σ d product cm mode).1 d product cm mode).2.map
        (readH (load_volume_for_market_dateH henv
          (load_volume_for_market_dateH henv σ d product cm mode).1 d product cm mode).1)
      = (load_volume_for_market_dateH henv σ d product cm mode).2.map
        (readH (load_volume_for_market_dateH henv σ d product cm mode).1) := by
  obtain ⟨hok1, ⟨t, hc⟩, hlen, hread, hval⟩ :=
    load_volume_for_market_dateH_spec henv σ d product cm mode hok
  refine ⟨hok1, ?_, hval, ?_, ?_⟩
  · intro pr hmem
    rw [hc]
    exact List.mem_append_left _ hmem
  · intro reqs p ids hmem
    have hrun := runRequestsH_cache_stable henv reqs σ hok
    refine ⟨hrun.2 p ids hmem, ?_⟩
    rw [(hrun.1 p ids (hrun.2 p ids hmem)).1, (hok p ids hmem).1]
  · obtain ⟨_, _, _, _, hval2⟩ :=
      load_volume_for_market_dateH_spec henv
        (load_volume_for_market_dateH henv σ d product cm mode).1 d product cm mode hok1
    rw [hval2, hval]

/-- Concrete path index and parse results: a day file at date 5 and a
night file (for market date 5) filed at date 6. -/
def henvW : HeapEnv where
  tradingDates := [5, 6]
  pathIndex := fun d k =>
    if d = 5 ∧ k = "WholeDay" then some "p5"
    else if d = 6 ∧ k = "Night" then some "p6"
    else none
  parseVolume := fun p =>
    if p = "p5" then [pvDayRec] else if p = "p6" then [pvNightRec] else []

/-- The initial state: empty heap, empty parse cache. -/
def hs0 : HeapState := ⟨[], []⟩

/-- C9 applied concretely: heap resolution from the empty cache produces
exactly the pure resolution result. -/
theorem c9_redating_touches_only_per_call_copies_witness :
    (load_volume_for_market_dateH henvW hs0 5 "NK225F" "2603" SessionMode.all).2.map
      (readH (load_volume_for_market_dateH henvW hs0 5 "NK225F" "2603" SessionMode.all).1)
    = load_volume_for_market_date (envOfHeap henvW) 5 "NK225F" "2603" SessionMode.all :=
  (c9_redating_touches_only_per_call_copies henvW hs0 5 "NK225F" "2603" SessionMode.all
    (fun _ _ h => absurd h (List.not_mem_nil _))).2.2.1

end JPX
